import Mathlib

/-!  Verification of `src/nbsynthetic/synthetic.py`.

A shallow embedding of the module over exact rational arithmetic.
Machine floats are modelled by `ℚ`; the external scikit-learn transforms
(`MinMaxScaler`, `QuantileTransformer`, `KBinsDiscretizer`, `np.interp`,
`np.percentile`, `np.unique`) are translated from their documented algorithms,
and the GAN is an opaque oracle, exactly as the module treats it.
Fallible library calls (scaler fits, `DataFrame` construction, out-of-bounds
indexing) are modelled with `Except`.
-/

set_option linter.unusedVariables false

/-- Python exceptions the pipeline can raise, one constructor per raise site. -/
inductive Err where
  /-- `ValueError` for nan values (synthetic.py line 209). -/
  | nanValues
  /-- `ValueError` naming a string-valued column (line 214). -/
  | stringColumn (c : String)
  /-- `IndexError` from `df.iloc[0]` on a frame with no rows (line 213). -/
  | iloc0
  /-- scikit-learn conversion failure on a non-numeric cell reaching a scaler. -/
  | castError
  /-- scikit-learn fit failure (empty column). -/
  | fitError
  /-- `ValueError` from the `train_gan` input validation (line 239). -/
  | emptyArrays
  /-- pandas `DataFrame(x_synthetic, columns=df.columns)` width mismatch (line 137). -/
  | shapeMismatch
  /-- scikit-learn `NotFittedError`: inverse transform on a never-fitted scaler. -/
  | notFitted
  /-- `IndexError` from `np.unique(newdf[cat_c])[1]` (line 169). -/
  | indexError
  /-- `ValueError`: `MinMaxScaler` feature range with min >= max (line 306). -/
  | rangeError
deriving DecidableEq, Repr

deriving instance DecidableEq for Except

/-- A column of an all-numeric dataframe: its name, whether its dtype is the
pandas `CategoricalDtype`, and its cell values. -/
structure NCol where
  name : String
  isCat : Bool
  vals : List ℚ
deriving DecidableEq, Repr

/-- A dataframe all of whose cells are numeric, as an ordered list of columns. -/
abbrev Frame := List NCol

/-- Values of the column named `c` (first matching column, pandas `df[c]`). -/
def Frame.colVals (f : Frame) (c : String) : List ℚ :=
  match f.find? (fun col => col.name == c) with
  | some col => col.vals
  | none => []

/-- The first column named `c`. -/
def Frame.findCol (f : Frame) (c : String) : Option NCol :=
  f.find? (fun col => col.name == c)

/-- Column assignment `df[c] = vs` with dtype `cat`; replaces every column
named `c`, keeping column order. -/
def Frame.setCol (f : Frame) (c : String) (cat : Bool) (vs : List ℚ) : Frame :=
  f.map (fun col => if col.name == c then ⟨c, cat, vs⟩ else col)

/-- The ordered list of column names. -/
def Frame.names (f : Frame) : List String := f.map (·.name)

/-- Number of rows, `len(df)`. -/
def rowCount (f : Frame) : ℕ :=
  match f with
  | [] => 0
  | col :: _ => col.vals.length

/-- Minimum of a list, `np.min` (junk value 0 on the empty list, on which
numpy raises). -/
def listMin : List ℚ → ℚ
  | [] => 0
  | [x] => x
  | x :: y :: t => min x (listMin (y :: t))

/-- Maximum of a list, `np.max`. -/
def listMax : List ℚ → ℚ
  | [] => 0
  | [x] => x
  | x :: y :: t => max x (listMax (y :: t))

/-- Ascending sort, `np.sort`. -/
def sortQ (xs : List ℚ) : List ℚ := List.insertionSort (· ≤ ·) xs

/-- Sorted distinct values, `np.unique`. -/
def npUnique (xs : List ℚ) : List ℚ := (sortQ xs).dedup

/-- Number of distinct values, `np.unique(xs).shape[0]`. -/
def distinctCount (xs : List ℚ) : ℕ := (npUnique xs).length

/-- `np.clip(x, lo, hi)`. -/
def clipQ (x lo hi : ℚ) : ℚ := max lo (min x hi)

/-- Fitted state of a scikit-learn `MinMaxScaler(feature_range=(lo, hi), clip=True)`:
the target range together with the observed data minimum and maximum. -/
structure MMScaler where
  lo : ℚ
  hi : ℚ
  dataMin : ℚ
  dataMax : ℚ
deriving DecidableEq, Repr

/-- `scale_ = (hi - lo) / _handle_zeros_in_scale(data_max - data_min)`. -/
def MMScaler.scaleF (s : MMScaler) : ℚ :=
  (s.hi - s.lo) / (if s.dataMax - s.dataMin = 0 then 1 else s.dataMax - s.dataMin)

/-- `min_ = lo - data_min * scale_`. -/
def MMScaler.minAdj (s : MMScaler) : ℚ := s.lo - s.dataMin * s.scaleF

/-- `MinMaxScaler(feature_range=(lo, hi)).fit(xs)`; scikit-learn raises when
`lo >= hi` or when the data is empty. -/
def MMScaler.fit (lo hi : ℚ) (xs : List ℚ) : Option MMScaler :=
  if lo < hi ∧ xs ≠ [] then some ⟨lo, hi, listMin xs, listMax xs⟩ else none

/-- `transform` with `clip=True`: `np.clip(x * scale_ + min_, lo, hi)`. -/
def MMScaler.transform (s : MMScaler) (x : ℚ) : ℚ :=
  clipQ (x * s.scaleF + s.minAdj) s.lo s.hi

/-- `inverse_transform`: `(x - min_) / scale_` (never clipped). -/
def MMScaler.inverse (s : MMScaler) (x : ℚ) : ℚ := (x - s.minAdj) / s.scaleF

/-- `np.linspace(0, 1, n)`. -/
def linspace01 (n : ℕ) : List ℚ :=
  if n = 1 then [0] else (List.range n).map (fun (k : ℕ) => (k : ℚ) / ((n : ℚ) - 1))

/-- `np.percentile(xs, p)` with the default linear interpolation method. -/
def percentileQ (xs : List ℚ) (p : ℚ) : ℚ :=
  let s := sortQ xs
  let pos := p * ((s.length : ℚ) - 1) / 100
  let i := Int.toNat ⌊pos⌋
  match s.get? i, s.get? (i + 1) with
  | some a, some b => a + (pos - (i : ℚ)) * (b - a)
  | some a, none => a
  | none, _ => 0

/-- Auxiliary accumulator for `np.maximum.accumulate`. -/
def accuMaxAux (m : ℚ) : List ℚ → List ℚ
  | [] => []
  | x :: xs => max m x :: accuMaxAux (max m x) xs

/-- `np.maximum.accumulate`. -/
def accuMax : List ℚ → List ℚ
  | [] => []
  | x :: xs => x :: accuMaxAux x xs

/-- Fitted state of `QuantileTransformer(output_distribution='uniform')`:
the uniform references and the matching data quantiles. -/
structure QScaler where
  refs : List ℚ
  qs : List ℚ
deriving DecidableEq, Repr

/-- `QuantileTransformer(n_quantiles=nq).fit(xs)`: the effective quantile count
is clamped to the sample count, references are `linspace(0, 1, n)` and the
quantiles are the matching data percentiles, made monotone by
`np.maximum.accumulate`. -/
def QScaler.fit (nq : ℕ) (xs : List ℚ) : QScaler :=
  let n := max 1 (min nq xs.length)
  let r := linspace01 n
  ⟨r, accuMax (r.map (fun p => percentileQ xs (p * 100)))⟩

/-- `np.interp(x, xp, fp)`: piecewise-linear interpolation, clamped to the
first/last value outside the knot range. -/
def interpQ (x : ℚ) : List ℚ → List ℚ → ℚ
  | [], _ => 0
  | [_], [] => 0
  | [_], y0 :: _ => y0
  | _ :: _ :: _, [] => 0
  | _ :: _ :: _, [_] => 0
  | x0 :: x1 :: xs, y0 :: y1 :: ys =>
    if x ≤ x0 then y0
    else if x ≤ x1 then y0 + (y1 - y0) * (x - x0) / (x1 - x0)
    else interpQ x (x1 :: xs) (y1 :: ys)

/-- Negate and reverse a knot list, as in the backward interpolation pass of
the quantile transform. -/
def revNeg (l : List ℚ) : List ℚ := (l.map (fun v => -v)).reverse

/-- Forward `QuantileTransformer._transform_col` for a uniform output: data
minimum and maximum are pinned to 0 and 1 (the minimum test winning on a
constant column, matching the overwrite order in scikit-learn), interior
values average the forward and backward interpolations. -/
def QScaler.transform (t : QScaler) (x : ℚ) : ℚ :=
  match t.qs.head?, t.qs.getLast? with
  | some lo, some hi =>
    if x = lo then 0
    else if x = hi then 1
    else (interpQ x t.qs t.refs - interpQ (-x) (revNeg t.qs) (revNeg t.refs)) / 2
  | _, _ => 0

/-- Inverse `QuantileTransformer._transform_col`: 0 and 1 map to the extreme
quantiles, interior values interpolate references back to quantiles. -/
def QScaler.inverse (t : QScaler) (x : ℚ) : ℚ :=
  match t.qs.head?, t.qs.getLast? with
  | some lo, some hi =>
    if x = 0 then lo
    else if x = 1 then hi
    else interpQ x t.refs t.qs
  | _, _ => 0

/-- `KBinsDiscretizer(n_bins=k, encode='ordinal', strategy='uniform').fit_transform`:
on a constant column scikit-learn collapses to a single bin of zeros; otherwise
the bin code of `x` counts the interior edges of `linspace(min, max, k+1)` that
are at most `x` (`np.searchsorted(..., side='right')`). -/
def kbinsFitTransform (k : ℕ) (xs : List ℚ) : List ℚ :=
  let m := listMin xs
  let M := listMax xs
  if m = M then xs.map (fun _ => 0)
  else xs.map (fun x =>
    (((List.range (k - 1)).filter
        (fun i => m + ((i + 1 : ℕ) : ℚ) * (M - m) / (k : ℚ) ≤ x)).length : ℚ))

/-- Left fold of a fallible step over column names, the loop skeleton shared by
the per-column loops of the module. -/
def foldE {β : Type} (σ : β → String → Except Err β) : β → List String → Except Err β
  | b, [] => .ok b
  | b, c :: cs =>
    match σ b c with
    | .error e => .error e
    | .ok b' => foldE σ b' cs

/-- `columns_type` (synthetic.py lines 26-44): numerical columns are those whose
dtype is not `CategoricalDtype`, categorical columns those whose dtype is. -/
def columns_type (df : Frame) : List String × List String :=
  ((df.filter (fun col => !col.isCat)).map (·.name),
   (df.filter (fun col => col.isCat)).map (·.name))

/-- One iteration of the categorical loop of `data_transformation` (lines 94-97):
refit the shared `MinMaxScaler(feature_range=(-1, 1), clip=True)` on the original
column and store the transformed values. -/
def dtCatStep (df : Frame) (p : Frame × Option MMScaler) (c : String) :
    Except Err (Frame × Option MMScaler) :=
  match MMScaler.fit (-1) 1 (df.colVals c) with
  | none => .error .fitError
  | some s => .ok (p.1.setCol c false ((df.colVals c).map s.transform), some s)

/-- The quantile transformer refit on column `c`, with
`n_quantiles = 100 if len(df) > 99 else len(df)` (lines 71-74, 84-87). -/
def dtQt (df : Frame) (c : String) : QScaler :=
  QScaler.fit (if 99 < rowCount df then 100 else rowCount df) (df.colVals c)

/-- One iteration of the numerical loop of `data_transformation` (lines 99-102):
refit the shared `QuantileTransformer` + `MinMaxScaler` pipeline on the original
column and store the transformed values. -/
def dtNumStep (df : Frame) (p : Frame × Option (QScaler × MMScaler)) (c : String) :
    Except Err (Frame × Option (QScaler × MMScaler)) :=
  let col := df.colVals c
  if col = [] then .error .fitError
  else
    let qt := dtQt df c
    let u := col.map qt.transform
    match MMScaler.fit (-1) 1 u with
    | none => .error .fitError
    | some mm => .ok (p.1.setCol c false (u.map mm.transform), some (qt, mm))

/-- `data_transformation` (lines 47-105): scale every categorical column with a
shared range scaler and every numerical column with a shared quantile + range
pipeline, returning the scaled matrix together with the two shared scalers,
each left in the fitted state of the last column it was refit on. -/
def data_transformation (df : Frame)
    (numerical_columns categorical_columns : List String) :
    Except Err (Frame × Option MMScaler × Option (QScaler × MMScaler)) :=
  match foldE (dtCatStep df) (df, none) categorical_columns with
  | .error e => .error e
  | .ok (f1, cs) =>
    match foldE (dtNumStep df) (f1, none) numerical_columns with
    | .error e => .error e
    | .ok (f2, ns) => .ok (f2, cs, ns)

/-- `pd.DataFrame(x_synthetic, columns=df.columns)` (lines 137-140), with the
synthetic matrix given by its columns; every column starts with a float dtype. -/
def buildFrame (df : Frame) (xsyn : List (List ℚ)) : Frame :=
  List.zipWith (fun (col : NCol) vs => (⟨col.name, false, vs⟩ : NCol)) df xsyn

/-- One iteration of the first categorical loop of `generate_data` (lines
141-157): when the original column has more than one distinct value, inverse
scale the synthetic column, discretize it into as many uniform ordinal bins as
there are original distinct values, and cast the result to a category dtype;
otherwise leave the column untouched. -/
def gdCatStep (df : Frame) (cs : Option MMScaler) (nf : Frame) (c : String) :
    Except Err Frame :=
  if 1 < distinctCount (df.colVals c) then
    match cs with
    | none => .error .notFitted
    | some s =>
      .ok (nf.setCol c true
        (kbinsFitTransform (distinctCount (df.colVals c)) ((nf.colVals c).map s.inverse)))
  else .ok nf

/-- One iteration of the numerical loop of `generate_data` (lines 159-163):
apply the inverse of the shared numerical pipeline (range scaler inverse, then
quantile inverse) and cast to float. -/
def gdNumStep (ns : Option (QScaler × MMScaler)) (nf : Frame) (c : String) :
    Except Err Frame :=
  match ns with
  | none => .error .notFitted
  | some p =>
    .ok (nf.setCol c false ((nf.colVals c).map (fun x => p.1.inverse (p.2.inverse x))))

/-- One iteration of the second categorical loop of `generate_data` (lines
165-175): when the original column has exactly two distinct values, replace the
two sorted distinct values of the synthetic column by the two sorted distinct
original values; indexing `np.unique(newdf[c])[1]` raises when the synthetic
column holds a single distinct value. -/
def gdRemapStep (df : Frame) (nf : Frame) (c : String) : Except Err Frame :=
  if distinctCount (df.colVals c) = 2 then
    match npUnique (nf.colVals c), npUnique (df.colVals c) with
    | u0 :: u1 :: _, d0 :: d1 :: _ =>
      .ok (nf.setCol c true
        ((nf.colVals c).map (fun v => if v = u0 then d0 else if v = u1 then d1 else v)))
    | _, _ => .error .indexError
  else .ok nf

/-- `generate_data` (lines 108-177). -/
def generate_data (df : Frame) (x_synthetic : List (List ℚ))
    (categorical_columns numerical_columns : List String)
    (categorical_scaler : Option MMScaler)
    (numerical_scaler : Option (QScaler × MMScaler)) : Except Err Frame :=
  if x_synthetic.length ≠ df.length then .error .shapeMismatch
  else
    match foldE (gdCatStep df categorical_scaler) (buildFrame df x_synthetic)
        categorical_columns with
    | .error e => .error e
    | .ok f1 =>
      match foldE (gdNumStep numerical_scaler) f1 numerical_columns with
      | .error e => .error e
      | .ok f2 => foldE (gdRemapStep df) f2 categorical_columns

/-- A raw dataframe cell: missing, numeric, or a string. -/
inductive Cell where
  | null
  | num (q : ℚ)
  | str (s : String)
deriving DecidableEq, Repr

/-- A raw input column, before validation. -/
structure RCol where
  name : String
  isCat : Bool
  cells : List Cell
deriving DecidableEq, Repr

/-- The raw input dataframe. -/
abbrev RawFrame := List RCol

/-- Whether a cell is missing. -/
def Cell.isNull : Cell → Bool
  | .null => true
  | _ => false

/-- `sum(pd.isnull(df).sum()) > 0` (line 208). -/
def hasNull (df : RawFrame) : Bool :=
  df.any (fun c => c.cells.any Cell.isNull)

/-- The validation loop of lines 212-215.  `isinstance(df[c].dtype, object)` is
always true in Python, so only `isinstance(df.iloc[0][c], str)` decides: the
first column whose FIRST-ROW cell is a string is reported; `df.iloc[0]` itself
raises on a frame with columns but no rows. -/
def stringCheck : RawFrame → Except Err Unit
  | [] => .ok ()
  | c :: rest =>
    match c.cells.head? with
    | none => .error .iloc0
    | some (.str _) => .error (.stringColumn c.name)
    | some _ => stringCheck rest

/-- Numeric view of a cell. -/
def Cell.toQ? : Cell → Option ℚ
  | .num q => some q
  | _ => none

/-- Conversion of the raw frame to the numeric matrix the scalers consume;
a remaining string cell surfaces as the scikit-learn conversion error. -/
def toNumFrame : RawFrame → Except Err Frame
  | [] => .ok []
  | c :: rest =>
    match c.cells.mapM Cell.toQ? with
    | none => .error .castError
    | some vs =>
      match toNumFrame rest with
      | .error e => .error e
      | .ok f => .ok (⟨c.name, c.isCat, vs⟩ :: f)

/-- The external GAN, an opaque oracle: `gLoss lr` is the generator loss
`train` reports for the instance constructed with learning rate `lr`, and
`fake lr samples` is the column-wise synthetic matrix `create_fake_samples`
returns from that instance. -/
structure GANOracle where
  gLoss : ℚ → ℚ
  fake : ℚ → ℕ → List (List ℚ)

/-- The retry policy of `synthetic_data` (lines 263-291), as the list of
learning rates passed to successive `train_gan` calls: a faithful translation
of the nested conditionals, including the re-test of the same first-attempt
loss inside the `else` branch. -/
def train_gan_attempts (gLoss : ℚ → ℚ) (initial_lr : ℚ) : List ℚ :=
  let G1 := gLoss initial_lr
  if 1 < G1 then [initial_lr, initial_lr / 10]
  else if 1 < G1 then [initial_lr, initial_lr / 100]
  else [initial_lr]

/-- The learning rate of the accepted (last) training attempt. -/
def lrAccepted (gLoss : ℚ → ℚ) (initial_lr : ℚ) : ℚ :=
  ((train_gan_attempts gLoss initial_lr).getLast?).getD initial_lr

/-- One iteration of the final rescale loop of `synthetic_data` (lines 305-316):
refit a fresh `MinMaxScaler` with target range the original column's observed
minimum and maximum and apply it to the generated column. -/
def frStep (df : Frame) (f : Frame) (c : String) : Except Err Frame :=
  match MMScaler.fit (listMin (df.colVals c)) (listMax (df.colVals c)) (f.colVals c) with
  | none => .error .rangeError
  | some s => .ok (f.setCol c false ((f.colVals c).map s.transform))

/-- `synthetic_data` (lines 180-318): validate, classify columns, forward
transform, train with the retry policy, sample, inverse transform, and finally
rescale every numerical column into its original observed range. -/
def synthetic_data (gan : GANOracle) (df : RawFrame) (samples : ℕ)
    (initial_lr : ℚ) : Except Err Frame :=
  if hasNull df then .error .nanValues
  else
    match stringCheck df with
    | .error e => .error e
    | .ok _ =>
      match toNumFrame df with
      | .error e => .error e
      | .ok nf =>
        let nc := columns_type nf
        match data_transformation nf nc.1 nc.2 with
        | .error e => .error e
        | .ok (scaled, cs, ns) =>
          if rowCount scaled = 0 then .error .emptyArrays
          else
            let xsyn := gan.fake (lrAccepted gan.gLoss initial_lr) samples
            match generate_data nf xsyn nc.2 nc.1 cs ns with
            | .error e => .error e
            | .ok newdf => foldE (frStep nf) newdf nc.1

/-- The round trip of claim C3: forward transform the original data and feed
the scaled matrix itself to `generate_data` in place of the generator output. -/
def roundTrip (nf : Frame) : Except Err Frame :=
  let nc := columns_type nf
  match data_transformation nf nc.1 nc.2 with
  | .error e => .error e
  | .ok (scaled, cs, ns) =>
    generate_data nf (scaled.map (·.vals)) nc.2 nc.1 cs ns

/-! ### Basic facts about the numeric primitives -/

theorem listMin_mem : ∀ {xs : List ℚ}, xs ≠ [] → listMin xs ∈ xs
  | [], h => absurd rfl h
  | [x], _ => by simp [listMin]
  | x :: y :: t, _ => by
    rcases le_total x (listMin (y :: t)) with h | h
    · simp [listMin, min_eq_left h]
    · have : listMin (y :: t) ∈ y :: t := listMin_mem (by simp)
      simp only [listMin, min_eq_right h]
      exact List.mem_cons_of_mem _ this

theorem listMin_le : ∀ {xs : List ℚ}, ∀ v ∈ xs, listMin xs ≤ v
  | [], v, hv => absurd hv (List.not_mem_nil v)
  | [x], v, hv => by
    simp only [List.mem_singleton] at hv
    simp [listMin, hv]
  | x :: y :: t, v, hv => by
    rcases List.mem_cons.mp hv with h | h
    · simp [listMin, h, min_le_left]
    · exact le_trans (by simp [listMin, min_le_right]) (listMin_le v h)

theorem listMax_mem : ∀ {xs : List ℚ}, xs ≠ [] → listMax xs ∈ xs
  | [], h => absurd rfl h
  | [x], _ => by simp [listMax]
  | x :: y :: t, _ => by
    rcases le_total (listMax (y :: t)) x with h | h
    · simp [listMax, max_eq_left h]
    · have : listMax (y :: t) ∈ y :: t := listMax_mem (by simp)
      simp only [listMax, max_eq_right h]
      exact List.mem_cons_of_mem _ this

theorem le_listMax : ∀ {xs : List ℚ}, ∀ v ∈ xs, v ≤ listMax xs
  | [], v, hv => absurd hv (List.not_mem_nil v)
  | [x], v, hv => by
    simp only [List.mem_singleton] at hv
    simp [listMax, hv]
  | x :: y :: t, v, hv => by
    rcases List.mem_cons.mp hv with h | h
    · simp [listMax, h, le_max_left]
    · exact le_trans (le_listMax v h) (by simp [listMax, le_max_right])

theorem listMin_eq {xs : List ℚ} {a : ℚ} (ha : a ∈ xs) (hall : ∀ v ∈ xs, a ≤ v) :
    listMin xs = a :=
  le_antisymm (listMin_le a ha) (hall _ (listMin_mem (List.ne_nil_of_mem ha)))

theorem listMax_eq {xs : List ℚ} {a : ℚ} (ha : a ∈ xs) (hall : ∀ v ∈ xs, v ≤ a) :
    listMax xs = a :=
  le_antisymm (hall _ (listMax_mem (List.ne_nil_of_mem ha))) (le_listMax a ha)

theorem listMin_le_listMax {xs : List ℚ} (h : xs ≠ []) : listMin xs ≤ listMax xs :=
  listMin_le _ (listMax_mem h)

theorem mem_npUnique {a : ℚ} {xs : List ℚ} : a ∈ npUnique xs ↔ a ∈ xs := by
  unfold npUnique sortQ
  rw [List.mem_dedup]
  exact (List.perm_insertionSort _ _).mem_iff

theorem npUnique_nodup (xs : List ℚ) : (npUnique xs).Nodup := List.nodup_dedup _

theorem npUnique_sorted (xs : List ℚ) : (npUnique xs).Sorted (· ≤ ·) :=
  List.Pairwise.sublist (List.dedup_sublist _) (List.sorted_insertionSort _ _)

theorem npUnique_pairwise_lt (xs : List ℚ) : (npUnique xs).Pairwise (· < ·) := by
  have h := (npUnique_sorted xs).and (npUnique_nodup xs)
  exact h.imp (fun hab => lt_of_le_of_ne hab.1 hab.2)

theorem sorted_pair_char {l : List ℚ} {a b : ℚ} (hp : l.Pairwise (· < ·))
    (hall : ∀ v ∈ l, v = a ∨ v = b) (ha : a ∈ l) (hb : b ∈ l) (hab : a < b) :
    l = [a, b] := by
  match l, hp with
  | [], _ => exact absurd ha (List.not_mem_nil a)
  | [u], _ =>
    simp only [List.mem_singleton] at ha hb
    rw [ha, hb] at hab
    exact absurd hab (lt_irrefl u)
  | u0 :: u1 :: t, hp =>
    have h01 : u0 < u1 := List.rel_of_pairwise_cons hp (by simp)
    have hu0 : u0 = a := by
      rcases hall u0 (by simp) with h | h
      · exact h
      · exfalso
        rcases List.mem_cons.mp ha with h' | h'
        · rw [h', h] at hab
          exact lt_irrefl b hab
        · have hlt := List.rel_of_pairwise_cons hp h'
          rw [h] at hlt
          exact absurd hab (not_lt.mpr hlt.le)
    have hu1 : u1 = b := by
      rcases hall u1 (by simp) with h | h
      · exfalso
        rw [hu0, h] at h01
        exact lt_irrefl a h01
      · exact h
    have ht : t = [] := by
      cases t with
      | nil => rfl
      | cons v t' =>
        exfalso
        have hv : u1 < v := List.rel_of_pairwise_cons (List.pairwise_cons.mp hp).2 (by simp)
        rcases hall v (by simp) with h | h
        · rw [h, hu1] at hv
          exact absurd hab (not_lt.mpr hv.le)
        · rw [h, hu1] at hv
          exact lt_irrefl b hv
    rw [hu0, hu1, ht]

theorem npUnique_eq_pair {a b : ℚ} {xs : List ℚ} (hab : a < b) (ha : a ∈ xs) (hb : b ∈ xs)
    (hall : ∀ v ∈ xs, v = a ∨ v = b) : npUnique xs = [a, b] :=
  sorted_pair_char (npUnique_pairwise_lt xs)
    (fun v hv => hall v (mem_npUnique.mp hv))
    (mem_npUnique.mpr ha) (mem_npUnique.mpr hb) hab

theorem npUnique_pair_inv {a b : ℚ} {xs : List ℚ} (h : npUnique xs = [a, b]) :
    a < b ∧ a ∈ xs ∧ b ∈ xs ∧ ∀ v ∈ xs, v = a ∨ v = b := by
  have hlt := npUnique_pairwise_lt xs
  rw [h] at hlt
  refine ⟨List.rel_of_pairwise_cons hlt (by simp), ?_, ?_, ?_⟩
  · exact mem_npUnique.mp (h ▸ (by simp : a ∈ [a, b]))
  · exact mem_npUnique.mp (h ▸ (by simp : b ∈ [a, b]))
  · intro v hv
    have : v ∈ npUnique xs := mem_npUnique.mpr hv
    rw [h] at this
    simpa using this

theorem clipQ_bounds {x lo hi : ℚ} (h : lo ≤ hi) :
    lo ≤ clipQ x lo hi ∧ clipQ x lo hi ≤ hi :=
  ⟨le_max_left _ _, max_le h (min_le_right _ _)⟩

theorem clipQ_eq {x lo hi : ℚ} (h1 : lo ≤ x) (h2 : x ≤ hi) : clipQ x lo hi = x := by
  unfold clipQ
  rw [min_eq_left h2, max_eq_right h1]

theorem MMScaler.fit_eq_some {lo hi : ℚ} {xs : List ℚ} {s : MMScaler}
    (h : MMScaler.fit lo hi xs = some s) :
    s = ⟨lo, hi, listMin xs, listMax xs⟩ ∧ lo < hi ∧ xs ≠ [] := by
  unfold MMScaler.fit at h
  split at h
  · rename_i hcond
    exact ⟨(Option.some_inj.mp h).symm, hcond.1, hcond.2⟩
  · exact absurd h (by simp)

theorem MMScaler.transform_bounds (s : MMScaler) (x : ℚ) (h : s.lo ≤ s.hi) :
    s.lo ≤ s.transform x ∧ s.transform x ≤ s.hi :=
  clipQ_bounds h

theorem MMScaler.scaleF_pos {s : MMScaler} (h : s.lo < s.hi) (hd : s.dataMin ≤ s.dataMax) :
    0 < s.scaleF := by
  unfold MMScaler.scaleF
  split
  · simpa using sub_pos.mpr h
  · rename_i hne
    exact div_pos (sub_pos.mpr h) (lt_of_le_of_ne (sub_nonneg.mpr hd) (Ne.symm hne))

theorem MMScaler.inverse_lt {s : MMScaler} (hs : 0 < s.scaleF) {x y : ℚ} (h : x < y) :
    s.inverse x < s.inverse y := by
  unfold MMScaler.inverse
  have h2 : x - s.minAdj < y - s.minAdj := by linarith
  exact (div_lt_div_iff_of_pos_right hs).mpr h2

theorem MMScaler.transform_of_mem_range {s : MMScaler} {x : ℚ} (hlo : s.lo < s.hi)
    (hx1 : s.dataMin ≤ x) (hx2 : x ≤ s.dataMax) :
    s.transform x = x * s.scaleF + s.minAdj := by
  have hsc : 0 < s.scaleF := MMScaler.scaleF_pos hlo (hx1.trans hx2)
  have hval : x * s.scaleF + s.minAdj = s.lo + (x - s.dataMin) * s.scaleF := by
    unfold MMScaler.minAdj
    ring
  have hlow : s.lo ≤ x * s.scaleF + s.minAdj := by
    rw [hval]
    nlinarith
  have hhigh : x * s.scaleF + s.minAdj ≤ s.hi := by
    rw [hval]
    rcases eq_or_ne (s.dataMax - s.dataMin) 0 with hz | hz
    · have hx : x = s.dataMin := le_antisymm (by linarith) hx1
      rw [hx]
      simp
      linarith
    · have hrange : 0 < s.dataMax - s.dataMin :=
        lt_of_le_of_ne (by linarith) (Ne.symm hz)
      have hscv : s.scaleF = (s.hi - s.lo) / (s.dataMax - s.dataMin) := by
        unfold MMScaler.scaleF
        rw [if_neg hz]
      have hstep : (x - s.dataMin) * s.scaleF ≤ (s.dataMax - s.dataMin) * s.scaleF :=
        mul_le_mul_of_nonneg_right (by linarith) hsc.le
      have hfull : (s.dataMax - s.dataMin) * s.scaleF = s.hi - s.lo := by
        rw [hscv]
        field_simp
      linarith
  unfold MMScaler.transform
  exact clipQ_eq hlow hhigh

theorem MMScaler.inverse_transform_exact {s : MMScaler} {x : ℚ} (hlo : s.lo < s.hi)
    (hx1 : s.dataMin ≤ x) (hx2 : x ≤ s.dataMax) :
    s.inverse (s.transform x) = x := by
  have hsc : 0 < s.scaleF := MMScaler.scaleF_pos hlo (hx1.trans hx2)
  rw [MMScaler.transform_of_mem_range hlo hx1 hx2]
  unfold MMScaler.inverse
  field_simp

theorem MMScaler.transform_dataMin {s : MMScaler} (hlo : s.lo < s.hi)
    (hd : s.dataMin ≤ s.dataMax) : s.transform s.dataMin = s.lo := by
  rw [MMScaler.transform_of_mem_range hlo le_rfl hd]
  unfold MMScaler.minAdj
  ring

theorem MMScaler.transform_dataMax {s : MMScaler} (hlo : s.lo < s.hi)
    (hd : s.dataMin < s.dataMax) : s.transform s.dataMax = s.hi := by
  rw [MMScaler.transform_of_mem_range hlo hd.le le_rfl]
  have hz : s.dataMax - s.dataMin ≠ 0 := by linarith
  have hscv : s.scaleF = (s.hi - s.lo) / (s.dataMax - s.dataMin) := by
    unfold MMScaler.scaleF
    rw [if_neg hz]
  unfold MMScaler.minAdj
  rw [hscv]
  field_simp
  ring

/-! ### Frame bookkeeping -/

theorem Frame.colVals_eq_findCol (f : Frame) (c : String) :
    f.colVals c = ((f.findCol c).map (·.vals)).getD [] := by
  unfold Frame.colVals Frame.findCol
  cases f.find? (fun col => col.name == c) <;> rfl

theorem Frame.setCol_names (f : Frame) (c : String) (b : Bool) (vs : List ℚ) :
    (f.setCol c b vs).map (·.name) = f.map (·.name) := by
  unfold Frame.setCol
  rw [List.map_map]
  apply List.map_congr_left
  intro col _
  by_cases h : col.name = c
  · simp [h]
  · simp [h]

theorem Frame.findCol_setCol_ne (f : Frame) {c c' : String} (h : c' ≠ c) (b : Bool)
    (vs : List ℚ) : (f.setCol c b vs).findCol c' = f.findCol c' := by
  unfold Frame.setCol Frame.findCol
  induction f with
  | nil => rfl
  | cons col t ih =>
    simp only [List.map_cons, List.find?_cons]
    by_cases hc : col.name = c
    · have h1 : ((if (col.name == c) = true then (⟨c, b, vs⟩ : NCol) else col).name == c') = false := by
        simp [hc, Ne.symm h]
      have h2 : (col.name == c') = false := by
        simp [hc, Ne.symm h]
      rw [h1, h2]
      exact ih
    · have h1 : (col.name == c) = false := by simp [hc]
      rw [h1]
      simp only [Bool.false_eq_true, if_false]
      by_cases hc' : col.name = c'
      · simp [hc']
      · have h2 : (col.name == c') = false := by simp [hc']
        rw [h2]
        exact ih

theorem Frame.findCol_setCol_self (f : Frame) (c : String) (b : Bool) (vs : List ℚ) :
    (f.setCol c b vs).findCol c =
      if (f.findCol c).isSome then some ⟨c, b, vs⟩ else none := by
  unfold Frame.setCol Frame.findCol
  induction f with
  | nil => rfl
  | cons col t ih =>
    by_cases hc : col.name = c
    · simp only [List.map_cons, hc, beq_self_eq_true, if_true]
      rw [List.find?_cons_of_pos _ (by simp), List.find?_cons_of_pos _ (by simp [hc])]
      simp
    · have h1 : (col.name == c) = false := by simp [hc]
      simp only [List.map_cons, h1, Bool.false_eq_true, if_false]
      rw [List.find?_cons_of_neg _ (by simp [hc]), List.find?_cons_of_neg _ (by simp [hc])]
      exact ih

theorem Frame.colVals_setCol_ne (f : Frame) {c c' : String} (h : c' ≠ c) (b : Bool)
    (vs : List ℚ) : (f.setCol c b vs).colVals c' = f.colVals c' := by
  rw [Frame.colVals_eq_findCol, Frame.colVals_eq_findCol, Frame.findCol_setCol_ne f h]

theorem Frame.colVals_setCol_self (f : Frame) (c : String) (b : Bool) (vs : List ℚ) :
    (f.setCol c b vs).colVals c =
      if (f.findCol c).isSome then vs else [] := by
  rw [Frame.colVals_eq_findCol, Frame.findCol_setCol_self]
  by_cases h : (f.findCol c).isSome
  · simp [h]
  · simp [h]

theorem Frame.colVals_of_findCol_none {f : Frame} {c : String} (h : f.findCol c = none) :
    f.colVals c = [] := by
  rw [Frame.colVals_eq_findCol, h]
  rfl

theorem Frame.findCol_isSome_iff (f : Frame) (c : String) :
    (f.findCol c).isSome ↔ c ∈ f.map (·.name) := by
  unfold Frame.findCol
  rw [List.find?_isSome]
  constructor
  · rintro ⟨col, hmem, hname⟩
    rw [beq_iff_eq] at hname
    exact hname ▸ List.mem_map_of_mem _ hmem
  · intro h
    rcases List.mem_map.mp h with ⟨col, hmem, hname⟩
    exact ⟨col, hmem, by simp [hname]⟩

/-! ### Generic facts about the per-column loop skeleton -/

theorem foldE_nil {β : Type} (σ : β → String → Except Err β) (b : β) :
    foldE σ b [] = .ok b := rfl

theorem foldE_cons_ok {β : Type} {σ : β → String → Except Err β} {b bf : β} {c : String}
    {cs : List String} (h : foldE σ b (c :: cs) = .ok bf) :
    ∃ b', σ b c = .ok b' ∧ foldE σ b' cs = .ok bf := by
  unfold foldE at h
  cases hs : σ b c with
  | error e => rw [hs] at h; exact absurd h (by simp)
  | ok b' => rw [hs] at h; exact ⟨b', rfl, h⟩

theorem foldE_append_ok {β : Type} {σ : β → String → Except Err β} {b bf : β}
    {l₁ l₂ : List String} (h : foldE σ b (l₁ ++ l₂) = .ok bf) :
    ∃ bm, foldE σ b l₁ = .ok bm ∧ foldE σ bm l₂ = .ok bf := by
  induction l₁ generalizing b with
  | nil => exact ⟨b, rfl, h⟩
  | cons c cs ih =>
    rw [List.cons_append] at h
    rcases foldE_cons_ok h with ⟨b', hb', hrest⟩
    rcases ih hrest with ⟨bm, h1, h2⟩
    refine ⟨bm, ?_, h2⟩
    unfold foldE
    rw [hb']
    exact h1

theorem foldE_view_const {β α : Type} {σ : β → String → Except Err β} (ν : β → α)
    {l : List String} {b₀ bf : β}
    (hσ : ∀ b b' c, c ∈ l → σ b c = .ok b' → ν b' = ν b)
    (h : foldE σ b₀ l = .ok bf) : ν bf = ν b₀ := by
  induction l generalizing b₀ with
  | nil =>
    unfold foldE at h
    cases h
    rfl
  | cons c cs ih =>
    rcases foldE_cons_ok h with ⟨b₁, hb₁, hrest⟩
    have h1 : ν bf = ν b₁ :=
      ih (fun b b' c' hc' => hσ b b' c' (List.mem_cons_of_mem _ hc')) hrest
    rw [h1, hσ b₀ b₁ c (by simp) hb₁]

theorem foldE_split {β α : Type} {σ : β → String → Except Err β} (ν : β → α)
    {l₁ l₂ : List String} {c : String} {b₀ bf : β}
    (h : foldE σ b₀ (l₁ ++ c :: l₂) = .ok bf)
    (h₁ : ∀ b b' c', c' ∈ l₁ → σ b c' = .ok b' → ν b' = ν b)
    (h₂ : ∀ b b' c', c' ∈ l₂ → σ b c' = .ok b' → ν b' = ν b) :
    ∃ bm b', σ bm c = .ok b' ∧ ν bm = ν b₀ ∧ ν bf = ν b' := by
  rcases foldE_append_ok h with ⟨bm, hm, hrest⟩
  rcases foldE_cons_ok hrest with ⟨b', hb', htail⟩
  exact ⟨bm, b', hb', foldE_view_const ν h₁ hm, foldE_view_const ν h₂ htail⟩

theorem mem_split_nodup {c : String} {l : List String} (hmem : c ∈ l) (hnd : l.Nodup) :
    ∃ l₁ l₂, l = l₁ ++ c :: l₂ ∧ c ∉ l₁ ∧ c ∉ l₂ := by
  rcases List.append_of_mem hmem with ⟨l₁, l₂, rfl⟩
  rw [List.nodup_append] at hnd
  refine ⟨l₁, l₂, rfl, ?_, ?_⟩
  · intro hc
    exact hnd.2.2 hc (by simp)
  · intro hc
    exact (List.nodup_cons.mp hnd.2.1).1 hc

/-! ### Inversion of the pipeline step functions -/

theorem gdCatStep_ok_inv {df : Frame} {cs : Option MMScaler} {nf nf' : Frame} {c : String}
    (h : gdCatStep df cs nf c = .ok nf') :
    (1 < distinctCount (df.colVals c) ∧ ∃ s, cs = some s ∧
      nf' = nf.setCol c true
        (kbinsFitTransform (distinctCount (df.colVals c)) ((nf.colVals c).map s.inverse))) ∨
    (¬ 1 < distinctCount (df.colVals c) ∧ nf' = nf) := by
  unfold gdCatStep at h
  split at h
  · rename_i hgt
    cases cs with
    | none => exact absurd h (by simp)
    | some s =>
      left
      refine ⟨hgt, s, rfl, ?_⟩
      injection h with h'
      exact h'.symm
  · rename_i hle
    right
    injection h with h'
    exact ⟨hle, h'.symm⟩

theorem gdNumStep_ok_inv {ns : Option (QScaler × MMScaler)} {nf nf' : Frame} {c : String}
    (h : gdNumStep ns nf c = .ok nf') :
    ∃ p, ns = some p ∧
      nf' = nf.setCol c false ((nf.colVals c).map (fun x => p.1.inverse (p.2.inverse x))) := by
  unfold gdNumStep at h
  cases ns with
  | none => exact absurd h (by simp)
  | some p =>
    injection h with h'
    exact ⟨p, rfl, h'.symm⟩

theorem gdRemapStep_ok_inv {df : Frame} {nf nf' : Frame} {c : String}
    (h : gdRemapStep df nf c = .ok nf') :
    (distinctCount (df.colVals c) = 2 ∧
      ∃ u0 u1 ur d0 d1 dr, npUnique (nf.colVals c) = u0 :: u1 :: ur ∧
        npUnique (df.colVals c) = d0 :: d1 :: dr ∧
        nf' = nf.setCol c true
          ((nf.colVals c).map (fun v => if v = u0 then d0 else if v = u1 then d1 else v))) ∨
    (distinctCount (df.colVals c) ≠ 2 ∧ nf' = nf) := by
  unfold gdRemapStep at h
  split at h
  · rename_i heq
    left
    refine ⟨heq, ?_⟩
    cases hu : npUnique (nf.colVals c) with
    | nil => rw [hu] at h; exact absurd h (by simp)
    | cons u0 ut =>
      cases ut with
      | nil => rw [hu] at h; exact absurd h (by simp)
      | cons u1 ur =>
        cases hd : npUnique (df.colVals c) with
        | nil => rw [hu, hd] at h; exact absurd h (by simp)
        | cons d0 dt =>
          cases dt with
          | nil => rw [hu, hd] at h; exact absurd h (by simp)
          | cons d1 dr =>
            rw [hu, hd] at h
            injection h with h'
            exact ⟨u0, u1, ur, d0, d1, dr, rfl, rfl, h'.symm⟩
  · rename_i hne
    right
    injection h with h'
    exact ⟨hne, h'.symm⟩

theorem frStep_ok_inv {df f f' : Frame} {c : String} (h : frStep df f c = .ok f') :
    ∃ s, MMScaler.fit (listMin (df.colVals c)) (listMax (df.colVals c)) (f.colVals c) = some s ∧
      f' = f.setCol c false ((f.colVals c).map s.transform) := by
  unfold frStep at h
  cases hf : MMScaler.fit (listMin (df.colVals c)) (listMax (df.colVals c)) (f.colVals c) with
  | none => rw [hf] at h; exact absurd h (by simp)
  | some s =>
    rw [hf] at h
    injection h with h'
    exact ⟨s, rfl, h'.symm⟩

theorem dtCatStep_ok_inv {df : Frame} {p : Frame × Option MMScaler}
    {p' : Frame × Option MMScaler} {c : String} (h : dtCatStep df p c = .ok p') :
    ∃ s, MMScaler.fit (-1) 1 (df.colVals c) = some s ∧
      p' = (p.1.setCol c false ((df.colVals c).map s.transform), some s) := by
  unfold dtCatStep at h
  cases hf : MMScaler.fit (-1) 1 (df.colVals c) with
  | none => rw [hf] at h; exact absurd h (by simp)
  | some s =>
    rw [hf] at h
    injection h with h'
    exact ⟨s, rfl, h'.symm⟩

theorem dtNumStep_ok_inv {df : Frame} {p p' : Frame × Option (QScaler × MMScaler)} {c : String}
    (h : dtNumStep df p c = .ok p') :
    ∃ mm, df.colVals c ≠ [] ∧
      MMScaler.fit (-1) 1 ((df.colVals c).map (dtQt df c).transform) = some mm ∧
      p' = (p.1.setCol c false
          (((df.colVals c).map (dtQt df c).transform).map mm.transform),
        some (dtQt df c, mm)) := by
  unfold dtNumStep at h
  dsimp only at h
  split at h
  · exact absurd h (by simp)
  · rename_i hne
    cases hf : MMScaler.fit (-1) 1 ((df.colVals c).map (dtQt df c).transform) with
    | none => rw [hf] at h; exact absurd h (by simp)
    | some mm =>
      rw [hf] at h
      injection h with h'
      exact ⟨mm, hne, rfl, h'.symm⟩

/-! ### Preservation corollaries for untouched columns and for column names -/

theorem gdCatStep_findCol_ne {df : Frame} {cs : Option MMScaler} {nf nf' : Frame}
    {c c' : String} (h : gdCatStep df cs nf c' = .ok nf') (hne : c ≠ c') :
    nf'.findCol c = nf.findCol c := by
  rcases gdCatStep_ok_inv h with ⟨_, s, _, rfl⟩ | ⟨_, rfl⟩
  · exact Frame.findCol_setCol_ne nf hne _ _
  · rfl

theorem gdNumStep_findCol_ne {ns : Option (QScaler × MMScaler)} {nf nf' : Frame}
    {c c' : String} (h : gdNumStep ns nf c' = .ok nf') (hne : c ≠ c') :
    nf'.findCol c = nf.findCol c := by
  rcases gdNumStep_ok_inv h with ⟨p, _, rfl⟩
  exact Frame.findCol_setCol_ne nf hne _ _

theorem gdRemapStep_findCol_ne {df : Frame} {nf nf' : Frame} {c c' : String}
    (h : gdRemapStep df nf c' = .ok nf') (hne : c ≠ c') :
    nf'.findCol c = nf.findCol c := by
  rcases gdRemapStep_ok_inv h with ⟨_, u0, u1, ur, d0, d1, dr, _, _, rfl⟩ | ⟨_, rfl⟩
  · exact Frame.findCol_setCol_ne nf hne _ _
  · rfl

theorem frStep_findCol_ne {df f f' : Frame} {c c' : String}
    (h : frStep df f c' = .ok f') (hne : c ≠ c') : f'.findCol c = f.findCol c := by
  rcases frStep_ok_inv h with ⟨s, _, rfl⟩
  exact Frame.findCol_setCol_ne f hne _ _

theorem gdCatStep_names {df : Frame} {cs : Option MMScaler} {nf nf' : Frame} {c : String}
    (h : gdCatStep df cs nf c = .ok nf') : nf'.map (·.name) = nf.map (·.name) := by
  rcases gdCatStep_ok_inv h with ⟨_, s, _, rfl⟩ | ⟨_, rfl⟩
  · exact Frame.setCol_names nf _ _ _
  · rfl

theorem gdNumStep_names {ns : Option (QScaler × MMScaler)} {nf nf' : Frame} {c : String}
    (h : gdNumStep ns nf c = .ok nf') : nf'.map (·.name) = nf.map (·.name) := by
  rcases gdNumStep_ok_inv h with ⟨p, _, rfl⟩
  exact Frame.setCol_names nf _ _ _

theorem gdRemapStep_names {df : Frame} {nf nf' : Frame} {c : String}
    (h : gdRemapStep df nf c = .ok nf') : nf'.map (·.name) = nf.map (·.name) := by
  rcases gdRemapStep_ok_inv h with ⟨_, u0, u1, ur, d0, d1, dr, _, _, rfl⟩ | ⟨_, rfl⟩
  · exact Frame.setCol_names nf _ _ _
  · rfl

theorem frStep_names {df f f' : Frame} {c : String} (h : frStep df f c = .ok f') :
    f'.map (·.name) = f.map (·.name) := by
  rcases frStep_ok_inv h with ⟨s, _, rfl⟩
  exact Frame.setCol_names f _ _ _

/-! ### Inversion of the composite functions -/

theorem generate_data_ok_inv {df : Frame} {xs : List (List ℚ)}
    {catc numc : List String} {cs : Option MMScaler} {ns : Option (QScaler × MMScaler)}
    {out : Frame} (h : generate_data df xs catc numc cs ns = .ok out) :
    xs.length = df.length ∧
    ∃ f1 f2, foldE (gdCatStep df cs) (buildFrame df xs) catc = .ok f1 ∧
      foldE (gdNumStep ns) f1 numc = .ok f2 ∧
      foldE (gdRemapStep df) f2 catc = .ok out := by
  unfold generate_data at h
  split at h
  · exact absurd h (by simp)
  · rename_i hlen
    refine ⟨not_ne_iff.mp hlen, ?_⟩
    cases hf1 : foldE (gdCatStep df cs) (buildFrame df xs) catc with
    | error e =>
      simp only [hf1] at h
      exact absurd h (by simp)
    | ok f1 =>
      simp only [hf1] at h
      cases hf2 : foldE (gdNumStep ns) f1 numc with
      | error e =>
        simp only [hf2] at h
        exact absurd h (by simp)
      | ok f2 =>
        simp only [hf2] at h
        exact ⟨f1, f2, rfl, hf2, h⟩

theorem data_transformation_ok_inv {df : Frame} {numc catc : List String}
    {scaled : Frame} {cs : Option MMScaler} {ns : Option (QScaler × MMScaler)}
    (h : data_transformation df numc catc = .ok (scaled, cs, ns)) :
    ∃ f1, foldE (dtCatStep df) (df, none) catc = .ok (f1, cs) ∧
      foldE (dtNumStep df) (f1, none) numc = .ok (scaled, ns) := by
  unfold data_transformation at h
  cases h1 : foldE (dtCatStep df) (df, none) catc with
  | error e =>
    rw [h1] at h
    exact absurd h (by simp)
  | ok p =>
    obtain ⟨f1, cs'⟩ := p
    simp only [h1] at h
    cases h2 : foldE (dtNumStep df) (f1, none) numc with
    | error e =>
      simp only [h2] at h
      exact absurd h (by simp)
    | ok p2 =>
      obtain ⟨f2, ns'⟩ := p2
      simp only [h2] at h
      injection h with h'
      injection h' with ha hb
      injection hb with hb hc
      subst ha hb hc
      exact ⟨f1, rfl, h2⟩

theorem synthetic_data_ok_inv {gan : GANOracle} {df : RawFrame} {samples : ℕ}
    {initial_lr : ℚ} {out : Frame}
    (h : synthetic_data gan df samples initial_lr = .ok out) :
    hasNull df = false ∧
    ∃ nf scaled cs ns newdf,
      stringCheck df = .ok () ∧
      toNumFrame df = .ok nf ∧
      data_transformation nf (columns_type nf).1 (columns_type nf).2 = .ok (scaled, cs, ns) ∧
      rowCount scaled ≠ 0 ∧
      generate_data nf (gan.fake (lrAccepted gan.gLoss initial_lr) samples)
        (columns_type nf).2 (columns_type nf).1 cs ns = .ok newdf ∧
      foldE (frStep nf) newdf (columns_type nf).1 = .ok out := by
  unfold synthetic_data at h
  split at h
  · exact absurd h (by simp)
  · rename_i hnn
    refine ⟨by simpa using hnn, ?_⟩
    cases hsc : stringCheck df with
    | error e => rw [hsc] at h; exact absurd h (by simp)
    | ok u =>
      obtain rfl : u = () := rfl
      simp only [hsc] at h
      cases hnf : toNumFrame df with
      | error e =>
        simp only [hnf] at h
        exact absurd h (by simp)
      | ok nf =>
        simp only [hnf] at h
        cases hdt : data_transformation nf (columns_type nf).1 (columns_type nf).2 with
        | error e =>
          simp only [hdt] at h
          exact absurd h (by simp)
        | ok trip =>
          obtain ⟨scaled, cs, ns⟩ := trip
          simp only [hdt] at h
          split at h
          · exact absurd h (by simp)
          · rename_i hrc
            cases hgd : generate_data nf (gan.fake (lrAccepted gan.gLoss initial_lr) samples)
                (columns_type nf).2 (columns_type nf).1 cs ns with
            | error e =>
              simp only [hgd] at h
              exact absurd h (by simp)
            | ok newdf =>
              simp only [hgd] at h
              exact ⟨nf, scaled, cs, ns, newdf, rfl, rfl, hdt, hrc, hgd, h⟩

/-! ### Auxiliary facts about validation and frame construction -/

theorem stringCheck_error_inv {df : RawFrame} {c : String}
    (h : stringCheck df = .error (.stringColumn c)) :
    ∃ col ∈ df, col.name = c ∧ ∃ s, col.cells.head? = some (.str s) := by
  induction df with
  | nil => exact absurd h (by simp [stringCheck])
  | cons col rest ih =>
    unfold stringCheck at h
    cases hh : col.cells.head? with
    | none =>
      rw [hh] at h
      injection h with h'
      exact absurd h' (by simp)
    | some cell =>
      cases cell with
      | null =>
        simp only [hh] at h
        rcases ih h with ⟨col', hmem, hname, s, hs⟩
        exact ⟨col', List.mem_cons_of_mem _ hmem, hname, s, hs⟩
      | num q =>
        simp only [hh] at h
        rcases ih h with ⟨col', hmem, hname, s, hs⟩
        exact ⟨col', List.mem_cons_of_mem _ hmem, hname, s, hs⟩
      | str s =>
        simp only [hh] at h
        injection h with h'
        injection h' with h''
        exact ⟨col, by simp, h'', s, hh⟩

theorem toNumFrame_names {df : RawFrame} {nf : Frame} (h : toNumFrame df = .ok nf) :
    nf.map (·.name) = df.map (·.name) := by
  induction df generalizing nf with
  | nil =>
    unfold toNumFrame at h
    injection h with h'
    subst h'
    rfl
  | cons col rest ih =>
    unfold toNumFrame at h
    cases hm : col.cells.mapM Cell.toQ? with
    | none =>
      rw [hm] at h
      exact absurd h (by simp)
    | some vs =>
      simp only [hm] at h
      cases hr : toNumFrame rest with
      | error e =>
        simp only [hr] at h
        exact absurd h (by simp)
      | ok f =>
        simp only [hr] at h
        injection h with h'
        subst h'
        simp [ih hr]

theorem buildFrame_names {df : Frame} {xs : List (List ℚ)} (h : xs.length = df.length) :
    (buildFrame df xs).map (·.name) = df.map (·.name) := by
  unfold buildFrame
  induction df generalizing xs with
  | nil => simp
  | cons col t ih =>
    cases xs with
    | nil => simp at h
    | cons v vt =>
      simp only [List.zipWith_cons_cons, List.map_cons]
      rw [ih (by simpa using h)]

/-! ## Claim C1: the training retry policy -/

/-- C1 (counterexample): with a generator whose loss is always 2, the retry
condition (generator loss greater than 1) still holds after the second
training attempt, yet only two attempts occur and no attempt with the learning
rate divided by 100 is ever made: the third-retrain branch of synthetic.py
lines 280-289 re-tests the first attempt's loss inside the `else` of the first
test, so it is unreachable. -/
theorem c1_counterexample :
    (fun _ : ℚ => (2 : ℚ)) ((1 : ℚ) / 50000) > 1 ∧
    train_gan_attempts (fun _ => 2) (1 / 5000) = [1 / 5000, 1 / 50000] ∧
    (1 / 500000 : ℚ) ∉ train_gan_attempts (fun _ => 2) (1 / 5000) :=
  ⟨by norm_num, by with_unfolding_all rfl, by with_unfolding_all decide⟩

/-- C1 (amended): a run whose first training attempt ends with generator loss
greater than 1.0 gets exactly one retry, with the learning rate divided by 10;
the branch that would retrain with the learning rate divided by 100 is dead
code (its guard re-tests the first attempt's loss inside the opposite branch),
so every run makes at most two training attempts, and the result of the last
attempt is accepted unconditionally. -/
theorem c1_amended_retry (gLoss : ℚ → ℚ) (lr : ℚ) :
    train_gan_attempts gLoss lr = (if 1 < gLoss lr then [lr, lr / 10] else [lr]) ∧
    (train_gan_attempts gLoss lr).length ≤ 2 ∧
    lrAccepted gLoss lr = (if 1 < gLoss lr then lr / 10 else lr) := by
  by_cases h : 1 < gLoss lr <;>
    simp [train_gan_attempts, lrAccepted, h]

/-! ## Claim C6: missing values fail before any training -/

/-- C6: a dataset with any missing value makes `synthetic_data` raise the nan
`ValueError`, uniformly in the generator oracle: the result does not depend on
the generator, so no generator instance is constructed and no training
occurs. -/
theorem c6_nan_check_first (gan : GANOracle) (df : RawFrame) (samples : ℕ) (lr : ℚ)
    (h : hasNull df = true) :
    synthetic_data gan df samples lr = .error .nanValues := by
  unfold synthetic_data
  rw [if_pos h]

/-- C6 (witness): a one-column dataset with a missing cell. -/
theorem c6_witness :
    hasNull [⟨"n", false, [Cell.null]⟩] = true ∧
    synthetic_data ⟨fun _ => 0, fun _ _ => []⟩ [⟨"n", false, [Cell.null]⟩] 1 1 =
      .error .nanValues :=
  ⟨by decide, c6_nan_check_first _ _ _ _ (by decide)⟩

/-! ## Claim C10: the binary remap indexes a possibly-singleton unique array -/

/-- C10: for the dataset with one binary categorical column `[0, 1]` and the
constant synthetic matrix `[[-1, -1]]`, the inverse-scaled column is constant,
the discretizer collapses it to the single bin code 0, and `generate_data`
fails with the out-of-bounds index error from `np.unique(newdf[c])[1]` instead
of returning a dataset. -/
theorem c10_constant_bin_index_error :
    npUnique (kbinsFitTransform 2
      (([(-1 : ℚ), -1]).map (MMScaler.inverse ⟨-1, 1, 0, 1⟩))) = [0] ∧
    generate_data [⟨"c", true, [0, 1]⟩] [[-1, -1]] ["c"] [] (some ⟨-1, 1, 0, 1⟩) none =
      .error .indexError :=
  ⟨by with_unfolding_all rfl, by with_unfolding_all rfl⟩

/-! ## Claim C7: string detection looks only at the first row -/

/-- C7 (counterexample): a column whose first row is numeric and whose second
row is the string "a" passes the validation loop of lines 212-215 untouched
(only `df.iloc[0][c]` is inspected), and `synthetic_data` fails later with the
scikit-learn conversion error, not with the invalid-input error naming the
column. -/
theorem c7_counterexample :
    synthetic_data ⟨fun _ => 0, fun _ _ => []⟩
      [⟨"m", false, [Cell.num 1, Cell.str "a"]⟩] 2 1 = .error .castError ∧
    ∀ c : String, Err.castError ≠ Err.stringColumn c :=
  ⟨by with_unfolding_all rfl, fun c h => Err.noConfusion h⟩

/-- C7 (amended): when the validation loop detects a string — that is, when
some column's FIRST-ROW cell is a string — `synthetic_data` raises the
invalid-input error naming the first such column; strings confined to later
rows are not detected by this check. -/
theorem c7_amended_first_row (gan : GANOracle) (df : RawFrame) (samples : ℕ) (lr : ℚ)
    (c : String) (h0 : hasNull df = false)
    (h1 : stringCheck df = .error (.stringColumn c)) :
    synthetic_data gan df samples lr = .error (.stringColumn c) ∧
    ∃ col ∈ df, col.name = c ∧ ∃ s, col.cells.head? = some (.str s) := by
  constructor
  · unfold synthetic_data
    rw [if_neg (by simp [h0]), h1]
  · exact stringCheck_error_inv h1

/-- C7 (witness): a column holding the string "x" in its first row. -/
theorem c7_witness :
    synthetic_data ⟨fun _ => 0, fun _ _ => []⟩
      [⟨"s", false, [Cell.str "x", Cell.num 1]⟩] 2 1 = .error (.stringColumn "s") ∧
    ∃ col ∈ [(⟨"s", false, [Cell.str "x", Cell.num 1]⟩ : RCol)], col.name = "s" ∧
      ∃ s, col.cells.head? = some (.str s) :=
  c7_amended_first_row ⟨fun _ => 0, fun _ _ => []⟩
    [⟨"s", false, [Cell.str "x", Cell.num 1]⟩] 2 1 "s" (by decide)
    (by with_unfolding_all rfl)

/-! ## Claim C9: single-valued categorical columns pass through untouched -/

/-- C9: a categorical column of the original dataset with exactly one distinct
value is returned by `generate_data` exactly as built from the generator
output: the same values, the same float dtype, no inverse scaling, binning,
cast or remapping. -/
theorem c9_single_valued_untouched (df : Frame) (xs : List (List ℚ))
    (catc numc : List String) (cs : Option MMScaler) (ns : Option (QScaler × MMScaler))
    (c : String) (out : Frame)
    (hc : c ∈ catc) (hnum : c ∉ numc) (hone : distinctCount (df.colVals c) = 1)
    (h : generate_data df xs catc numc cs ns = .ok out) :
    out.findCol c = (buildFrame df xs).findCol c := by
  rcases generate_data_ok_inv h with ⟨hlen, f1, f2, hf1, hf2, hf3⟩
  have v1 : f1.findCol c = (buildFrame df xs).findCol c := by
    apply foldE_view_const (fun f => f.findCol c) ?_ hf1
    intro b b' c' hc' hstep
    by_cases hne : c = c'
    · subst hne
      rcases gdCatStep_ok_inv hstep with ⟨hgt, _, _, rfl⟩ | ⟨_, rfl⟩
      · rw [hone] at hgt
        exact absurd hgt (by norm_num)
      · rfl
    · exact gdCatStep_findCol_ne hstep hne
  have v2 : f2.findCol c = f1.findCol c := by
    apply foldE_view_const (fun f => f.findCol c) ?_ hf2
    intro b b' c' hc' hstep
    exact gdNumStep_findCol_ne hstep (fun he => hnum (he ▸ hc'))
  have v3 : out.findCol c = f2.findCol c := by
    apply foldE_view_const (fun f => f.findCol c) ?_ hf3
    intro b b' c' hc' hstep
    by_cases hne : c = c'
    · subst hne
      rcases gdRemapStep_ok_inv hstep with ⟨h2, _⟩ | ⟨_, rfl⟩
      · rw [hone] at h2
        exact absurd h2 (by norm_num)
      · rfl
    · exact gdRemapStep_findCol_ne hstep hne
  rw [v3, v2, v1]

/-- C9 (witness): the constant categorical column `[3, 3]` with synthetic
column `[7, 8]` comes back exactly as generated. -/
theorem c9_witness :
    generate_data [⟨"c", true, [3, 3]⟩] [[7, 8]] ["c"] [] none none =
      .ok [⟨"c", false, [7, 8]⟩] ∧
    Frame.findCol [⟨"c", false, [7, 8]⟩] "c" =
      (buildFrame [⟨"c", true, [3, 3]⟩] [[7, 8]]).findCol "c" :=
  ⟨by with_unfolding_all rfl,
   c9_single_valued_untouched [⟨"c", true, [3, 3]⟩] [[7, 8]] ["c"] [] none none "c"
     [⟨"c", false, [7, 8]⟩] (by decide) (by decide) (by with_unfolding_all decide)
     (by with_unfolding_all rfl)⟩

/-! ## Claim C4: column names and order are preserved -/

/-- C4: every dataset `synthetic_data` returns has exactly the column names of
the input dataset, in the same order. -/
theorem c4_names_preserved (gan : GANOracle) (df : RawFrame) (samples : ℕ) (lr : ℚ)
    (out : Frame) (h : synthetic_data gan df samples lr = .ok out) :
    out.map (·.name) = df.map (·.name) := by
  rcases synthetic_data_ok_inv h with
    ⟨hn, nf, scaled, cs, ns, newdf, hsc, hnf, hdt, hrc, hgd, hfr⟩
  rcases generate_data_ok_inv hgd with ⟨hlen, f1, f2, hf1, hf2, hf3⟩
  have e0 : (buildFrame nf (gan.fake (lrAccepted gan.gLoss lr) samples)).map (·.name) =
      nf.map (·.name) := buildFrame_names hlen
  have e1 : f1.map (·.name) =
      (buildFrame nf (gan.fake (lrAccepted gan.gLoss lr) samples)).map (·.name) :=
    foldE_view_const (fun f => f.map (·.name)) (fun b b' c' _ hs => gdCatStep_names hs) hf1
  have e2 : f2.map (·.name) = f1.map (·.name) :=
    foldE_view_const (fun f => f.map (·.name)) (fun b b' c' _ hs => gdNumStep_names hs) hf2
  have e3 : newdf.map (·.name) = f2.map (·.name) :=
    foldE_view_const (fun f => f.map (·.name)) (fun b b' c' _ hs => gdRemapStep_names hs) hf3
  have e4 : out.map (·.name) = newdf.map (·.name) :=
    foldE_view_const (fun f => f.map (·.name)) (fun b b' c' _ hs => frStep_names hs) hfr
  rw [e4, e3, e2, e1, e0, toNumFrame_names hnf]

/-- C4 (witness): a full successful run on a one-column numeric dataset. -/
theorem c4_witness :
    synthetic_data ⟨fun _ => 1 / 2, fun _ _ => [[0, 1 / 2]]⟩
      [⟨"n", false, [Cell.num 0, Cell.num 1, Cell.num 2]⟩] 2 (1 / 5000) =
      .ok [⟨"n", false, [0, 2]⟩] ∧
    List.map (·.name) [(⟨"n", false, [0, 2]⟩ : NCol)] =
      List.map (·.name) [(⟨"n", false, [Cell.num 0, Cell.num 1, Cell.num 2]⟩ : RCol)] :=
  ⟨by with_unfolding_all rfl,
   c4_names_preserved ⟨fun _ => 1 / 2, fun _ _ => [[0, 1 / 2]]⟩
     [⟨"n", false, [Cell.num 0, Cell.num 1, Cell.num 2]⟩] 2 (1 / 5000)
     [⟨"n", false, [0, 2]⟩] (by with_unfolding_all rfl)⟩

/-! ## Claim C8: the column classifier partitions the columns -/

/-- C8: for a dataset with distinct column names, `columns_type` returns two
disjoint lists that together cover every column exactly once, and a column's
name lands in the categorical list exactly when its declared dtype is the
categorical dtype, in the numerical list otherwise. -/
theorem c8_partition (df : Frame) (hnd : (df.map (·.name)).Nodup) :
    ((columns_type df).1 ++ (columns_type df).2).Perm (df.map (·.name)) ∧
    (∀ c ∈ (columns_type df).1, c ∉ (columns_type df).2) ∧
    (∀ col ∈ df, (col.name ∈ (columns_type df).2 ↔ col.isCat = true) ∧
      (col.name ∈ (columns_type df).1 ↔ col.isCat = false)) := by
  have hinj : ∀ x ∈ df, ∀ y ∈ df, x.name = y.name → x = y :=
    fun x hx y hy hxy => List.inj_on_of_nodup_map hnd hx hy hxy
  refine ⟨?_, ?_, ?_⟩
  · unfold columns_type
    have hflt : (df.filter (fun col => !col.isCat) ++ df.filter (fun col => col.isCat)).Perm df := by
      have h := List.filter_append_perm (fun col => !col.isCat) df
      have hcg : df.filter (fun col => !!col.isCat) = df.filter (fun col => col.isCat) :=
        List.filter_congr (fun col _ => by simp [Bool.not_not])
      rw [hcg] at h
      exact h
    simpa [List.map_append] using hflt.map (·.name)
  · intro c hc1 hc2
    unfold columns_type at hc1 hc2
    rcases List.mem_map.mp hc1 with ⟨col₁, hm₁, hn₁⟩
    rcases List.mem_map.mp hc2 with ⟨col₂, hm₂, hn₂⟩
    rcases List.mem_filter.mp hm₁ with ⟨hd₁, hp₁⟩
    rcases List.mem_filter.mp hm₂ with ⟨hd₂, hp₂⟩
    have : col₁ = col₂ := hinj col₁ hd₁ col₂ hd₂ (hn₁.trans hn₂.symm)
    rw [this] at hp₁
    simp [hp₂] at hp₁
  · intro col hmem
    constructor
    · constructor
      · intro hin
        unfold columns_type at hin
        rcases List.mem_map.mp hin with ⟨col₂, hm₂, hn₂⟩
        rcases List.mem_filter.mp hm₂ with ⟨hd₂, hp₂⟩
        have : col = col₂ := hinj col hmem col₂ hd₂ hn₂.symm
        rw [this]
        exact hp₂
      · intro hcat
        unfold columns_type
        exact List.mem_map_of_mem _ (List.mem_filter.mpr ⟨hmem, hcat⟩)
    · constructor
      · intro hin
        unfold columns_type at hin
        rcases List.mem_map.mp hin with ⟨col₂, hm₂, hn₂⟩
        rcases List.mem_filter.mp hm₂ with ⟨hd₂, hp₂⟩
        have : col = col₂ := hinj col hmem col₂ hd₂ hn₂.symm
        rw [this]
        simpa using hp₂
      · intro hcat
        unfold columns_type
        exact List.mem_map_of_mem _ (List.mem_filter.mpr ⟨hmem, by simp [hcat]⟩)

/-- C8 (witness): a two-column dataset, one numeric and one categorical. -/
theorem c8_witness :
    ((columns_type [⟨"a", false, [1]⟩, ⟨"b", true, [2]⟩]).1 ++
        (columns_type [⟨"a", false, [1]⟩, ⟨"b", true, [2]⟩]).2).Perm
      (List.map (·.name) [(⟨"a", false, [1]⟩ : NCol), ⟨"b", true, [2]⟩]) ∧
    (∀ c ∈ (columns_type [⟨"a", false, [1]⟩, ⟨"b", true, [2]⟩]).1,
      c ∉ (columns_type [⟨"a", false, [1]⟩, ⟨"b", true, [2]⟩]).2) ∧
    (∀ col ∈ [(⟨"a", false, [1]⟩ : NCol), ⟨"b", true, [2]⟩],
      (col.name ∈ (columns_type [⟨"a", false, [1]⟩, ⟨"b", true, [2]⟩]).2 ↔ col.isCat = true) ∧
      (col.name ∈ (columns_type [⟨"a", false, [1]⟩, ⟨"b", true, [2]⟩]).1 ↔ col.isCat = false)) :=
  c8_partition [⟨"a", false, [1]⟩, ⟨"b", true, [2]⟩] (by decide)

/-! ## Claim C2: output numerical columns stay inside the observed range -/

/-- The final rescale loop keeps every rescaled column of every processed name
inside the original column's observed range. -/
theorem frFold_bounds {nf : Frame} {numc : List String} {f₀ out : Frame}
    (h : foldE (frStep nf) f₀ numc = .ok out) :
    ∀ c ∈ numc, ∀ v ∈ out.colVals c,
      listMin (nf.colVals c) ≤ v ∧ v ≤ listMax (nf.colVals c) := by
  induction numc generalizing f₀ with
  | nil =>
    intro c hc
    exact absurd hc (List.not_mem_nil c)
  | cons c₀ rest ih =>
    rcases foldE_cons_ok h with ⟨f₁, hstep, hrest⟩
    intro c hc v hv
    rcases List.mem_cons.mp hc with rfl | hcr
    · by_cases hmem : c ∈ rest
      · exact ih hrest c hmem v hv
      · have hpres : out.findCol c = f₁.findCol c := by
          apply foldE_view_const (fun f => f.findCol c) ?_ hrest
          intro b b' c' hc' hs
          exact frStep_findCol_ne hs (fun he => hmem (he ▸ hc'))
        rcases frStep_ok_inv hstep with ⟨s, hfit, rfl⟩
        rcases MMScaler.fit_eq_some hfit with ⟨hs_eq, hlohi, hne⟩
        have hcv : out.colVals c =
            (f₀.setCol c false ((f₀.colVals c).map s.transform)).colVals c := by
          rw [Frame.colVals_eq_findCol, Frame.colVals_eq_findCol, hpres]
        rw [hcv, Frame.colVals_setCol_self] at hv
        by_cases hsome : (f₀.findCol c).isSome
        · rw [if_pos hsome] at hv
          rcases List.mem_map.mp hv with ⟨x, hx, rfl⟩
          subst hs_eq
          exact MMScaler.transform_bounds _ x (le_of_lt hlohi)
        · rw [if_neg hsome] at hv
          exact absurd hv (List.not_mem_nil v)
    · exact ih hrest c hcr v hv

/-- C2: every value of every numerical column of a dataset returned by
`synthetic_data` lies within the closed interval from the minimum to the
maximum of that column in the input dataset. -/
theorem c2_numeric_bounds (gan : GANOracle) (df : RawFrame) (samples : ℕ) (lr : ℚ)
    (nf out : Frame) (hnf : toNumFrame df = .ok nf)
    (h : synthetic_data gan df samples lr = .ok out) :
    ∀ c ∈ (columns_type nf).1, ∀ v ∈ out.colVals c,
      listMin (nf.colVals c) ≤ v ∧ v ≤ listMax (nf.colVals c) := by
  rcases synthetic_data_ok_inv h with
    ⟨hn, nf', scaled, cs, ns, newdf, hsc, hnf', hdt, hrc, hgd, hfr⟩
  have heq : nf = nf' := by
    have := hnf.symm.trans hnf'
    injection this
  subst heq
  exact frFold_bounds hfr

/-- C2 (witness): the successful run of the one-column dataset `[0, 1, 2]`,
whose output `[0, 2]` lies within the observed range. -/
theorem c2_witness :
    listMin (Frame.colVals [⟨"n", false, [0, 1, 2]⟩] "n") ≤ 2 ∧
    (2 : ℚ) ≤ listMax (Frame.colVals [⟨"n", false, [0, 1, 2]⟩] "n") :=
  c2_numeric_bounds ⟨fun _ => 1 / 2, fun _ _ => [[0, 1 / 2]]⟩
    [⟨"n", false, [Cell.num 0, Cell.num 1, Cell.num 2]⟩] 2 (1 / 5000)
    [⟨"n", false, [0, 1, 2]⟩] [⟨"n", false, [0, 2]⟩]
    (by with_unfolding_all rfl) (by with_unfolding_all rfl) "n" (by decide)
    2 (by with_unfolding_all decide)

/-! ## Claim C5: binary categorical remapping -/

/-- A two-bin discretization only emits the codes 0 and 1. -/
theorem kbins_two_codes {w : List ℚ} : ∀ v ∈ kbinsFitTransform 2 w, v = 0 ∨ v = 1 := by
  unfold kbinsFitTransform
  intro v hv
  by_cases hmm : listMin w = listMax w
  · rw [if_pos hmm] at hv
    rcases List.mem_map.mp hv with ⟨x, hx, rfl⟩
    exact Or.inl rfl
  · rw [if_neg hmm] at hv
    rcases List.mem_map.mp hv with ⟨x, hx, rfl⟩
    cases hfl : (List.range (2 - 1)).filter
        (fun i => listMin w + ((i + 1 : ℕ) : ℚ) * (listMax w - listMin w) / ((2 : ℕ) : ℚ) ≤ x) with
    | nil => simp
    | cons a t =>
      have hle : (a :: t).length ≤ 1 := by
        rw [← hfl]
        calc _ ≤ (List.range (2 - 1)).length := List.length_filter_le _ _
          _ = 1 := by simp
      cases t with
      | nil => simp
      | cons b t' => simp at hle

/-- Specialization of `gdCatStep_ok_inv` when the guard holds. -/
theorem gdCatStep_ok_of_gt {df : Frame} {cs : Option MMScaler} {nf nf' : Frame} {c : String}
    (h : gdCatStep df cs nf c = .ok nf') (hgt : 1 < distinctCount (df.colVals c)) :
    ∃ s, cs = some s ∧ nf' = nf.setCol c true
      (kbinsFitTransform (distinctCount (df.colVals c)) ((nf.colVals c).map s.inverse)) := by
  rcases gdCatStep_ok_inv h with ⟨_, s, hcs, he⟩ | ⟨hngt, _⟩
  · exact ⟨s, hcs, he⟩
  · exact absurd hgt hngt

/-- Specialization of `gdRemapStep_ok_inv` when the guard holds. -/
theorem gdRemapStep_ok_of_two {df : Frame} {nf nf' : Frame} {c : String}
    (h : gdRemapStep df nf c = .ok nf') (h2 : distinctCount (df.colVals c) = 2) :
    ∃ u0 u1 ur d0 d1 dr, npUnique (nf.colVals c) = u0 :: u1 :: ur ∧
      npUnique (df.colVals c) = d0 :: d1 :: dr ∧
      nf' = nf.setCol c true
        ((nf.colVals c).map (fun v => if v = u0 then d0 else if v = u1 then d1 else v)) := by
  rcases gdRemapStep_ok_inv h with ⟨_, hex⟩ | ⟨hne, _⟩
  · exact hex
  · exact absurd h2 hne

/-- A list whose distinct values begin with two entries and whose members are
all 0 or 1 has distinct values exactly `[0, 1]`. -/
theorem npUnique_pair_of_sub {l : List ℚ} {u0 u1 : ℚ} {ur : List ℚ}
    (h : npUnique l = u0 :: u1 :: ur) (hsub : ∀ v ∈ l, v = 0 ∨ v = 1) :
    npUnique l = [0, 1] := by
  have hmem0 : u0 ∈ l := mem_npUnique.mp (by rw [h]; simp)
  have hmem1 : u1 ∈ l := mem_npUnique.mp (by rw [h]; simp)
  have hlt : u0 < u1 := by
    have hp := npUnique_pairwise_lt l
    rw [h] at hp
    exact List.rel_of_pairwise_cons hp (by simp)
  rcases hsub u0 hmem0 with h0 | h0 <;> rcases hsub u1 hmem1 with h1 | h1
  · rw [h0, h1] at hlt
    exact absurd hlt (lt_irrefl 0)
  · exact npUnique_eq_pair (by norm_num) (h0 ▸ hmem0) (h1 ▸ hmem1) hsub
  · rw [h0, h1] at hlt
    exact absurd hlt (by norm_num)
  · rw [h0, h1] at hlt
    exact absurd hlt (lt_irrefl 1)

/-- C5 (amended): for an original categorical column with exactly two distinct
values `x < y`, every value of that column in a dataset returned by
`generate_data` is one of the two original values, and the correspondence is
by SORTED order — `np.unique` sorts, so the first (lower) bin code 0 receives
the smallest original value `x` and bin code 1 the larger value `y` — not by
first-seen order. -/
theorem c5_binary_remap_sorted (df : Frame) (xs : List (List ℚ))
    (catc numc : List String) (cs : Option MMScaler) (ns : Option (QScaler × MMScaler))
    (c : String) (x y : ℚ) (out : Frame)
    (hnodup : catc.Nodup) (hc : c ∈ catc) (hcn : c ∉ numc)
    (hxy : npUnique (df.colVals c) = [x, y])
    (h : generate_data df xs catc numc cs ns = .ok out) :
    x < y ∧ (∀ v ∈ out.colVals c, v = x ∨ v = y) ∧
    ∃ s, cs = some s ∧
      out.colVals c =
        (kbinsFitTransform 2 (((buildFrame df xs).colVals c).map s.inverse)).map
          (fun b => if b = 0 then x else y) := by
  have hd2 : distinctCount (df.colVals c) = 2 := by
    unfold distinctCount
    rw [hxy]
    rfl
  have hxlty : x < y := (npUnique_pair_inv hxy).1
  rcases generate_data_ok_inv h with ⟨hlen, f1, f2, hf1, hf2, hf3⟩
  rcases mem_split_nodup hc hnodup with ⟨l₁, l₂, rfl, hnl₁, hnl₂⟩
  rcases foldE_split (fun f => f.findCol c) hf1
      (fun b b' c' hc' hs => gdCatStep_findCol_ne hs (fun (he : c = c') => hnl₁ (he ▸ hc')))
      (fun b b' c' hc' hs => gdCatStep_findCol_ne hs (fun (he : c = c') => hnl₂ (he ▸ hc')))
    with ⟨m1, m1', hstep1, hview1, hview1'⟩
  obtain ⟨s, hcs, rfl⟩ := gdCatStep_ok_of_gt hstep1 (by rw [hd2]; norm_num)
  have hm1cv : m1.colVals c = (buildFrame df xs).colVals c := by
    rw [Frame.colVals_eq_findCol, Frame.colVals_eq_findCol, hview1]
  have hbin : (m1.setCol c true (kbinsFitTransform (distinctCount (df.colVals c))
        ((m1.colVals c).map s.inverse))).findCol c =
      if (m1.findCol c).isSome then
        some ⟨c, true, kbinsFitTransform 2 (((buildFrame df xs).colVals c).map s.inverse)⟩
      else none := by
    rw [Frame.findCol_setCol_self, hd2, hm1cv]
  have hview2 : f2.findCol c = f1.findCol c :=
    foldE_view_const (fun f => f.findCol c)
      (fun b b' c' hc' hs => gdNumStep_findCol_ne hs (fun (he : c = c') => hcn (he ▸ hc'))) hf2
  rcases foldE_split (fun f => f.findCol c) hf3
      (fun b b' c' hc' hs => gdRemapStep_findCol_ne hs (fun (he : c = c') => hnl₁ (he ▸ hc')))
      (fun b b' c' hc' hs => gdRemapStep_findCol_ne hs (fun (he : c = c') => hnl₂ (he ▸ hc')))
    with ⟨m3, m3', hstep3, hview3, hview3'⟩
  obtain ⟨u0, u1, ur, d0, d1, dr, hu, hd, rfl⟩ := gdRemapStep_ok_of_two hstep3 hd2
  rw [hxy] at hd
  simp only [List.cons.injEq] at hd
  obtain ⟨rfl, rfl, rfl⟩ := hd
  have hchain : m3.findCol c =
      if (m1.findCol c).isSome then
        some ⟨c, true, kbinsFitTransform 2 (((buildFrame df xs).colVals c).map s.inverse)⟩
      else none := by
    rw [hview3, hview2, hview1', hbin]
  by_cases hsome : (m1.findCol c).isSome
  case neg =>
    rw [if_neg hsome] at hchain
    have hnilcv : m3.colVals c = [] := Frame.colVals_of_findCol_none hchain
    rw [hnilcv] at hu
    exact absurd hu (by simp [npUnique, sortQ, List.insertionSort])
  rw [if_pos hsome] at hchain
  have hm3cv : m3.colVals c =
      kbinsFitTransform 2 (((buildFrame df xs).colVals c).map s.inverse) := by
    rw [Frame.colVals_eq_findCol, hchain]
    rfl
  rw [hm3cv] at hu
  have hcodes : ∀ v ∈ kbinsFitTransform 2 (((buildFrame df xs).colVals c).map s.inverse),
      v = 0 ∨ v = 1 := kbins_two_codes
  have hpair : npUnique (kbinsFitTransform 2
      (((buildFrame df xs).colVals c).map s.inverse)) = [0, 1] :=
    npUnique_pair_of_sub hu hcodes
  have hux : u0 = 0 ∧ u1 = 1 ∧ ur = [] := by
    have := hpair.symm.trans hu
    simp only [List.cons.injEq] at this
    exact ⟨this.1.symm, this.2.1.symm, this.2.2.symm⟩
  obtain ⟨rfl, rfl, rfl⟩ := hux
  have hsome3 : (m3.findCol c).isSome := by rw [hchain]; rfl
  have hout : out.colVals c =
      (kbinsFitTransform 2 (((buildFrame df xs).colVals c).map s.inverse)).map
        (fun v => if v = 0 then x else if v = 1 then y else v) := by
    rw [Frame.colVals_eq_findCol, hview3', Frame.findCol_setCol_self, if_pos hsome3, hm3cv]
    rfl
  have hform : (kbinsFitTransform 2 (((buildFrame df xs).colVals c).map s.inverse)).map
        (fun v => if v = 0 then x else if v = 1 then y else v) =
      (kbinsFitTransform 2 (((buildFrame df xs).colVals c).map s.inverse)).map
        (fun b => if b = 0 then x else y) := by
    apply List.map_congr_left
    intro b hb
    rcases hcodes b hb with rfl | rfl
    · simp
    · norm_num
  refine ⟨hxlty, ?_, s, hcs, ?_⟩
  · intro v hv
    rw [hout, hform] at hv
    rcases List.mem_map.mp hv with ⟨b, hb, rfl⟩
    by_cases hb0 : b = 0
    · rw [if_pos hb0]
      exact Or.inl rfl
    · rw [if_neg hb0]
      exact Or.inr rfl
  · rw [hout, hform]

/-- C5 (counterexample): for the column `[5, 2, 5]` the first-seen value is 5,
yet the remap sends the first bin code 0 to 2, the SMALLEST value, because
`np.unique` sorts: the actual output column is `[5, 2, 5]` while first-seen
correspondence would predict `[2, 5, 2]`. -/
theorem c5_counterexample :
    generate_data [⟨"c", true, [5, 2, 5]⟩] [[1, -1, 1]] ["c"] [] (some ⟨-1, 1, 2, 5⟩) none =
      .ok [⟨"c", true, [5, 2, 5]⟩] ∧
    kbinsFitTransform 2 (([1, -1, 1] : List ℚ).map (MMScaler.inverse ⟨-1, 1, 2, 5⟩)) =
      [1, 0, 1] ∧
    (Frame.colVals [⟨"c", true, [5, 2, 5]⟩] "c").head? = some 5 ∧
    ([1, 0, 1] : List ℚ).map (fun b => if b = 0 then (5 : ℚ) else 2) = [2, 5, 2] ∧
    ([2, 5, 2] : List ℚ) ≠ [5, 2, 5] :=
  ⟨by with_unfolding_all rfl, by with_unfolding_all rfl, by with_unfolding_all rfl,
   by with_unfolding_all rfl, by with_unfolding_all decide⟩

/-- C5 (witness): the binary column `[5, 2, 5]` with distinct values 2 < 5. -/
theorem c5_witness :
    (2 : ℚ) < 5 ∧
    (∀ v ∈ Frame.colVals [⟨"c", true, [5, 2, 5]⟩] "c", v = 2 ∨ v = 5) ∧
    (∃ s, (some (⟨-1, 1, 2, 5⟩ : MMScaler) = some s) ∧
      Frame.colVals [⟨"c", true, [5, 2, 5]⟩] "c" =
        (kbinsFitTransform 2
          (((buildFrame [⟨"c", true, [5, 2, 5]⟩] [[1, -1, 1]]).colVals "c").map
            s.inverse)).map (fun b => if b = 0 then 2 else 5)) :=
  c5_binary_remap_sorted [⟨"c", true, [5, 2, 5]⟩] [[1, -1, 1]] ["c"] [] (some ⟨-1, 1, 2, 5⟩)
    none "c" 2 5 [⟨"c", true, [5, 2, 5]⟩] (by decide) (by decide) (by decide)
    (by with_unfolding_all rfl) (by with_unfolding_all rfl)

/-! ## Claim C3: the forward/inverse round trip -/

theorem columns_type_nodup {df : Frame} (hnd : (df.map (·.name)).Nodup) :
    (columns_type df).1.Nodup ∧ (columns_type df).2.Nodup := by
  unfold columns_type
  constructor
  · exact hnd.sublist (List.Sublist.map _ (List.filter_sublist df))
  · exact hnd.sublist (List.Sublist.map _ (List.filter_sublist df))

theorem columns_type_disjoint {df : Frame} (hnd : (df.map (·.name)).Nodup) {c : String}
    (hc : c ∈ (columns_type df).2) : c ∉ (columns_type df).1 := by
  intro hc1
  unfold columns_type at hc hc1
  rcases List.mem_map.mp hc with ⟨col₁, hm₁, hn₁⟩
  rcases List.mem_map.mp hc1 with ⟨col₂, hm₂, hn₂⟩
  rcases List.mem_filter.mp hm₁ with ⟨hd₁, hp₁⟩
  rcases List.mem_filter.mp hm₂ with ⟨hd₂, hp₂⟩
  have : col₁ = col₂ :=
    List.inj_on_of_nodup_map hnd hd₁ hd₂ (hn₁.trans hn₂.symm)
  rw [this] at hp₁
  simp [hp₁] at hp₂

theorem columns_type_disjoint' {df : Frame} (hnd : (df.map (·.name)).Nodup) {c : String}
    (hc : c ∈ (columns_type df).1) : c ∉ (columns_type df).2 :=
  fun hc2 => columns_type_disjoint hnd hc2 hc

theorem mem_names_of_mem_cat {df : Frame} {c : String} (hc : c ∈ (columns_type df).2) :
    c ∈ df.map (·.name) := by
  unfold columns_type at hc
  rcases List.mem_map.mp hc with ⟨col, hm, hn⟩
  exact hn ▸ List.mem_map_of_mem _ (List.mem_filter.mp hm).1

theorem mem_names_of_mem_num {df : Frame} {c : String} (hc : c ∈ (columns_type df).1) :
    c ∈ df.map (·.name) := by
  unfold columns_type at hc
  rcases List.mem_map.mp hc with ⟨col, hm, hn⟩
  exact hn ▸ List.mem_map_of_mem _ (List.mem_filter.mp hm).1

theorem dtCatStep_view_ne {df : Frame} {p p' : Frame × Option MMScaler} {c c' : String}
    (h : dtCatStep df p c' = .ok p') (hne : c ≠ c') : p'.1.findCol c = p.1.findCol c := by
  rcases dtCatStep_ok_inv h with ⟨s, _, rfl⟩
  exact Frame.findCol_setCol_ne p.1 hne _ _

theorem dtNumStep_view_ne {df : Frame} {p p' : Frame × Option (QScaler × MMScaler)}
    {c c' : String} (h : dtNumStep df p c' = .ok p') (hne : c ≠ c') :
    p'.1.findCol c = p.1.findCol c := by
  rcases dtNumStep_ok_inv h with ⟨mm, _, _, rfl⟩
  exact Frame.findCol_setCol_ne p.1 hne _ _

theorem dtCatStep_names {df : Frame} {p p' : Frame × Option MMScaler} {c : String}
    (h : dtCatStep df p c = .ok p') : p'.1.map (·.name) = p.1.map (·.name) := by
  rcases dtCatStep_ok_inv h with ⟨s, _, rfl⟩
  exact Frame.setCol_names p.1 _ _ _

theorem dtNumStep_names {df : Frame} {p p' : Frame × Option (QScaler × MMScaler)} {c : String}
    (h : dtNumStep df p c = .ok p') : p'.1.map (·.name) = p.1.map (·.name) := by
  rcases dtNumStep_ok_inv h with ⟨mm, _, _, rfl⟩
  exact Frame.setCol_names p.1 _ _ _

/-- The categorical loop of `data_transformation` leaves the column named `c`
holding the shared scaler's transform of the original column, refit on that
column. -/
theorem dtCatFold_colVals {df : Frame} {catc : List String}
    {p0 : Frame × Option MMScaler} {p1 : Frame × Option MMScaler} {c : String}
    (h : foldE (dtCatStep df) p0 catc = .ok p1)
    (hc : c ∈ catc) (hnd : catc.Nodup) :
    ∃ s, MMScaler.fit (-1) 1 (df.colVals c) = some s ∧
      p1.1.findCol c = (if (p0.1.findCol c).isSome then
        some ⟨c, false, (df.colVals c).map s.transform⟩ else none) := by
  rcases mem_split_nodup hc hnd with ⟨l₁, l₂, rfl, hnl₁, hnl₂⟩
  rcases foldE_split (fun p => p.1.findCol c) h
      (fun b b' c' hc' hs => dtCatStep_view_ne hs (fun (he : c = c') => hnl₁ (he ▸ hc')))
      (fun b b' c' hc' hs => dtCatStep_view_ne hs (fun (he : c = c') => hnl₂ (he ▸ hc')))
    with ⟨m, m', hstep, hview, hview'⟩
  rcases dtCatStep_ok_inv hstep with ⟨s, hfit, rfl⟩
  refine ⟨s, hfit, ?_⟩
  rw [hview', Frame.findCol_setCol_self, hview]

/-- The numerical loop of `data_transformation` leaves the column named `c`
holding the quantile-then-range transform of the original column, refit on
that column. -/
theorem dtNumFold_colVals {df : Frame} {numc : List String}
    {p0 p1 : Frame × Option (QScaler × MMScaler)} {c : String}
    (h : foldE (dtNumStep df) p0 numc = .ok p1)
    (hc : c ∈ numc) (hnd : numc.Nodup) :
    ∃ mm, MMScaler.fit (-1) 1 ((df.colVals c).map (dtQt df c).transform) = some mm ∧
      p1.1.findCol c = (if (p0.1.findCol c).isSome then
        some ⟨c, false, ((df.colVals c).map (dtQt df c).transform).map mm.transform⟩
        else none) := by
  rcases mem_split_nodup hc hnd with ⟨l₁, l₂, rfl, hnl₁, hnl₂⟩
  rcases foldE_split (fun p => p.1.findCol c) h
      (fun b b' c' hc' hs => dtNumStep_view_ne hs (fun (he : c = c') => hnl₁ (he ▸ hc')))
      (fun b b' c' hc' hs => dtNumStep_view_ne hs (fun (he : c = c') => hnl₂ (he ▸ hc')))
    with ⟨m, m', hstep, hview, hview'⟩
  rcases dtNumStep_ok_inv hstep with ⟨mm, hne, hfit, rfl⟩
  refine ⟨mm, hfit, ?_⟩
  rw [hview', Frame.findCol_setCol_self, hview]

/-- The categorical loop returns the scaler fit on the last categorical
column. -/
theorem dtCatFold_last {df : Frame} : ∀ {catc : List String}
    {p0 p1 : Frame × Option MMScaler},
    foldE (dtCatStep df) p0 catc = .ok p1 → ∀ {cl : String}, catc.getLast? = some cl →
    ∃ s, MMScaler.fit (-1) 1 (df.colVals cl) = some s ∧ p1.2 = some s := by
  intro catc
  induction catc with
  | nil =>
    intro p0 p1 h cl hcl
    exact absurd hcl (by simp)
  | cons c rest ih =>
    intro p0 p1 h cl hcl
    rcases foldE_cons_ok h with ⟨p', hstep, hrest⟩
    cases rest with
    | nil =>
      unfold foldE at hrest
      cases hrest
      rcases dtCatStep_ok_inv hstep with ⟨s, hfit, rfl⟩
      simp only [List.getLast?_singleton, Option.some_inj] at hcl
      exact ⟨s, hcl ▸ hfit, rfl⟩
    | cons c2 rest2 =>
      have hcl' : (c2 :: rest2).getLast? = some cl := by
        rw [← hcl]
        exact (List.getLast?_cons_cons ..).symm
      exact ih hrest hcl'

/-- The numerical loop returns the pipeline fit on the last numerical
column. -/
theorem dtNumFold_last {df : Frame} : ∀ {numc : List String}
    {p0 p1 : Frame × Option (QScaler × MMScaler)},
    foldE (dtNumStep df) p0 numc = .ok p1 → ∀ {cl : String}, numc.getLast? = some cl →
    ∃ mm, MMScaler.fit (-1) 1 ((df.colVals cl).map (dtQt df cl).transform) = some mm ∧
      p1.2 = some (dtQt df cl, mm) := by
  intro numc
  induction numc with
  | nil =>
    intro p0 p1 h cl hcl
    exact absurd hcl (by simp)
  | cons c rest ih =>
    intro p0 p1 h cl hcl
    rcases foldE_cons_ok h with ⟨p', hstep, hrest⟩
    cases rest with
    | nil =>
      unfold foldE at hrest
      cases hrest
      rcases dtNumStep_ok_inv hstep with ⟨mm, hne, hfit, rfl⟩
      simp only [List.getLast?_singleton, Option.some_inj] at hcl
      subst hcl
      exact ⟨mm, hfit, rfl⟩
    | cons c2 rest2 =>
      have hcl' : (c2 :: rest2).getLast? = some cl := by
        rw [← hcl]
        exact (List.getLast?_cons_cons ..).symm
      exact ih hrest hcl'

/-- Column names after `data_transformation`. -/
theorem data_transformation_names {df : Frame} {numc catc : List String} {scaled : Frame}
    {cs : Option MMScaler} {ns : Option (QScaler × MMScaler)}
    (h : data_transformation df numc catc = .ok (scaled, cs, ns)) :
    scaled.map (·.name) = df.map (·.name) := by
  rcases data_transformation_ok_inv h with ⟨f1, h1, h2⟩
  have e1 : (f1, cs).1.map (·.name) = (df, (none : Option MMScaler)).1.map (·.name) :=
    foldE_view_const (fun p => p.1.map (·.name)) (fun b b' c' _ hs => dtCatStep_names hs) h1
  have e2 : (scaled, ns).1.map (·.name) = (f1, (none : Option (QScaler × MMScaler))).1.map
      (·.name) :=
    foldE_view_const (fun p => p.1.map (·.name)) (fun b b' c' _ hs => dtNumStep_names hs) h2
  exact e2.trans e1

/-- Inversion of `roundTrip`. -/
theorem roundTrip_ok_inv {nf out : Frame} (h : roundTrip nf = .ok out) :
    ∃ scaled cs ns,
      data_transformation nf (columns_type nf).1 (columns_type nf).2 = .ok (scaled, cs, ns) ∧
      generate_data nf (scaled.map (·.vals)) (columns_type nf).2 (columns_type nf).1 cs ns =
        .ok out := by
  unfold roundTrip at h
  cases hdt : data_transformation nf (columns_type nf).1 (columns_type nf).2 with
  | error e =>
    simp only [hdt] at h
    exact absurd h (by simp)
  | ok trip =>
    obtain ⟨scaled, cs, ns⟩ := trip
    simp only [hdt] at h
    exact ⟨scaled, cs, ns, rfl, h⟩

/-- Feeding a frame's own columns back through `pd.DataFrame(..., df.columns)`
reproduces its columns when the names line up. -/
theorem buildFrame_vals {df g : Frame} (hn : g.map (·.name) = df.map (·.name)) (c : String) :
    (buildFrame df (g.map (·.vals))).colVals c = g.colVals c := by
  induction df generalizing g with
  | nil =>
    have : g = [] := by
      cases g with
      | nil => rfl
      | cons a t => simp at hn
    subst this
    rfl
  | cons col t ih =>
    cases g with
    | nil => simp at hn
    | cons gcol gt =>
      simp only [List.map_cons, List.cons.injEq] at hn
      unfold buildFrame
      simp only [List.map_cons, List.zipWith_cons_cons]
      unfold Frame.colVals
      by_cases hname : col.name = c
      · rw [List.find?_cons_of_pos _ (by simp [hname]),
          List.find?_cons_of_pos _ (by simp [hn.1, hname])]
      · rw [List.find?_cons_of_neg _ (by simp [hname]),
          List.find?_cons_of_neg _ (by simp [hn.1, hname])]
        exact ih hn.2

/-- On a column with distinct values `[x, y]`, the refit range scaler sends
`x` to -1 and `y` to 1. -/
theorem binary_transform_col {col : List ℚ} {x y : ℚ} (hxy : npUnique col = [x, y])
    {s : MMScaler} (hs : MMScaler.fit (-1) 1 col = some s) :
    col.map s.transform = col.map (fun v => if v = x then (-1 : ℚ) else 1) := by
  obtain ⟨hlt, hx, hy, hall⟩ := npUnique_pair_inv hxy
  obtain ⟨hseq, hlohi, hne⟩ := MMScaler.fit_eq_some hs
  subst hseq
  have hmin : listMin col = x :=
    listMin_eq hx (fun v hv => by rcases hall v hv with rfl | rfl
                                  · exact le_rfl
                                  · exact hlt.le)
  have hmax : listMax col = y :=
    listMax_eq hy (fun v hv => by rcases hall v hv with rfl | rfl
                                  · exact hlt.le
                                  · exact le_rfl)
  apply List.map_congr_left
  intro v hv
  rcases hall v hv with hvx | hvy
  · rw [hvx, if_pos rfl, ← hmin]
    exact MMScaler.transform_dataMin (by norm_num) (listMin_le_listMax hne)
  · rw [hvy, if_neg hlt.ne', ← hmax]
    exact MMScaler.transform_dataMax (by norm_num) (by rw [hmin, hmax]; exact hlt)

/-- Length of a filtered singleton, as a rational bin code. -/
theorem filter_singleton_length {p : ℕ → Bool} :
    (((List.filter p [0]).length : ℕ) : ℚ) = if p 0 then 1 else 0 := by
  cases h : p 0 <;> simp [List.filter, h]

/-- Uniform two-bin discretization of a two-valued list: the smaller value
gets code 0, the larger code 1. -/
theorem kbins_two_valued {w : List ℚ} {p q : ℚ} (hpq : p < q)
    (hall : ∀ v ∈ w, v = p ∨ v = q) (hp : p ∈ w) (hq : q ∈ w) :
    kbinsFitTransform 2 w = w.map (fun v => if v = p then (0 : ℚ) else 1) := by
  have hmin : listMin w = p :=
    listMin_eq hp (fun v hv => by rcases hall v hv with rfl | rfl
                                  · exact le_rfl
                                  · exact hpq.le)
  have hmax : listMax w = q :=
    listMax_eq hq (fun v hv => by rcases hall v hv with rfl | rfl
                                  · exact hpq.le
                                  · exact le_rfl)
  unfold kbinsFitTransform
  rw [hmin, hmax, if_neg hpq.ne]
  apply List.map_congr_left
  intro v hv
  have hr : List.range (2 - 1) = [0] := rfl
  rcases hall v hv with hvp | hvq
  · have hb : decide (p + ((0 + 1 : ℕ) : ℚ) * (q - p) / ((2 : ℕ) : ℚ) ≤ v) = false := by
      rw [decide_eq_false_iff_not, hvp]
      push_cast
      intro hcon
      nlinarith
    rw [hr, filter_singleton_length]
    simp only [hb, Bool.false_eq_true, if_false, if_pos hvp]
  · have hb : decide (p + ((0 + 1 : ℕ) : ℚ) * (q - p) / ((2 : ℕ) : ℚ) ≤ v) = true := by
      rw [decide_eq_true_eq, hvq]
      push_cast
      nlinarith
    rw [hr, filter_singleton_length]
    simp only [hb, if_true, if_neg (show v ≠ p by rw [hvq]; exact hpq.ne')]

/-- The full categorical branch of the round trip on a binary column: scale,
inverse-scale through any strictly increasing fitted scaler, discretize into
two bins, and remap the sorted bin codes to the sorted original values —
recovering the column exactly. -/
theorem binary_cat_pipeline {col : List ℚ} {x y : ℚ} (hxy : npUnique col = [x, y])
    {s : MMScaler} (hs : MMScaler.fit (-1) 1 col = some s) {g : MMScaler}
    (hg : 0 < g.scaleF) :
    npUnique (kbinsFitTransform 2 ((col.map s.transform).map g.inverse)) = [0, 1] ∧
    (kbinsFitTransform 2 ((col.map s.transform).map g.inverse)).map
      (fun v => if v = (0 : ℚ) then x else if v = 1 then y else v) = col := by
  obtain ⟨hlt, hx, hy, hall⟩ := npUnique_pair_inv hxy
  have hpq : g.inverse (-1) < g.inverse 1 := MMScaler.inverse_lt hg (by norm_num)
  have hw : (col.map s.transform).map g.inverse =
      col.map (fun v => if v = x then g.inverse (-1) else g.inverse 1) := by
    rw [binary_transform_col hxy hs, List.map_map]
    apply List.map_congr_left
    intro v hv
    simp only [Function.comp_apply]
    exact apply_ite g.inverse (v = x) (-1) 1
  have hallw : ∀ u ∈ col.map (fun v => if v = x then g.inverse (-1) else g.inverse 1),
      u = g.inverse (-1) ∨ u = g.inverse 1 := by
    intro u hu
    rcases List.mem_map.mp hu with ⟨v, hv, rfl⟩
    by_cases hvx : v = x
    · rw [if_pos hvx]
      exact Or.inl rfl
    · rw [if_neg hvx]
      exact Or.inr rfl
  have hpw : g.inverse (-1) ∈ col.map (fun v => if v = x then g.inverse (-1) else g.inverse 1) :=
    List.mem_map.mpr ⟨x, hx, by rw [if_pos rfl]⟩
  have hqw : g.inverse 1 ∈ col.map (fun v => if v = x then g.inverse (-1) else g.inverse 1) :=
    List.mem_map.mpr ⟨y, hy, by rw [if_neg hlt.ne']⟩
  have hbin : kbinsFitTransform 2 ((col.map s.transform).map g.inverse) =
      col.map (fun v => if v = x then (0 : ℚ) else 1) := by
    rw [hw, kbins_two_valued hpq hallw hpw hqw, List.map_map]
    apply List.map_congr_left
    intro v hv
    simp only [Function.comp_apply]
    by_cases hvx : v = x
    · simp [hvx]
    · simp [hvx, hpq.ne']
  constructor
  · rw [hbin]
    apply npUnique_eq_pair (by norm_num)
    · exact List.mem_map.mpr ⟨x, hx, by rw [if_pos rfl]⟩
    · exact List.mem_map.mpr ⟨y, hy, by rw [if_neg hlt.ne']⟩
    · intro v hv
      rcases List.mem_map.mp hv with ⟨u, hu, rfl⟩
      by_cases hux : u = x
      · rw [if_pos hux]
        exact Or.inl rfl
      · rw [if_neg hux]
        exact Or.inr rfl
  · rw [hbin, List.map_map]
    have : col.map ((fun v => if v = (0 : ℚ) then x else if v = 1 then y else v) ∘
        (fun v => if v = x then (0 : ℚ) else 1)) = col.map (fun v => v) := by
      apply List.map_congr_left
      intro v hv
      simp only [Function.comp_apply]
      rcases hall v hv with hvx | hvy
      · rw [hvx, if_pos rfl, if_pos rfl]
      · rw [hvy, if_neg hlt.ne', if_neg (by norm_num : (1 : ℚ) ≠ 0), if_pos rfl]
    rw [this, List.map_id']

theorem linspace01_length (n : ℕ) : (linspace01 n).length = n := by
  unfold linspace01
  split
  · rename_i h
    simp [h]
  · simp

theorem linspace01_get? {n k : ℕ} (h2 : 2 ≤ n) (hk : k < n) :
    (linspace01 n).get? k = some ((k : ℚ) / ((n : ℚ) - 1)) := by
  unfold linspace01
  rw [if_neg (by omega), List.get?_map, List.get?_range hk]
  rfl

theorem linspace01_pairwise (n : ℕ) : (linspace01 n).Pairwise (· < ·) := by
  unfold linspace01
  match n with
  | 0 => simp
  | 1 => simp
  | m + 2 =>
    rw [if_neg (by omega)]
    have hpos : (0 : ℚ) < ((m + 2 : ℕ) : ℚ) - 1 := by
      push_cast
      linarith
    refine List.Pairwise.map _ ?_ (List.pairwise_lt_range _)
    intro a b hab
    exact (div_lt_div_iff_of_pos_right hpos).mpr (by exact_mod_cast hab)

theorem linspace01_mem_bounds {n : ℕ} : ∀ r ∈ linspace01 n, 0 ≤ r ∧ r ≤ 1 := by
  unfold linspace01
  match n with
  | 0 => simp
  | 1 =>
    intro r hr
    rw [if_pos rfl] at hr
    simp only [List.mem_singleton] at hr
    subst hr
    norm_num
  | m + 2 =>
    rw [if_neg (by omega)]
    intro r hr
    rcases List.mem_map.mp hr with ⟨k, hk, rfl⟩
    have hkm : k < m + 2 := List.mem_range.mp hk
    have hpos : (0 : ℚ) < ((m + 2 : ℕ) : ℚ) - 1 := by
      push_cast
      linarith
    constructor
    · exact div_nonneg (Nat.cast_nonneg k) hpos.le
    · rw [div_le_one hpos]
      push_cast
      have : (k : ℚ) ≤ (m : ℚ) + 1 := by exact_mod_cast Nat.lt_succ_iff.mp hkm
      linarith

theorem linspace01_head? {n : ℕ} (h1 : 1 ≤ n) : (linspace01 n).head? = some 0 := by
  unfold linspace01
  match n with
  | 1 => rfl
  | m + 2 =>
    rw [if_neg (by omega)]
    have : List.range (m + 2) = 0 :: List.drop 1 (List.range (m + 2)) := by
      rw [List.range_succ_eq_map]
      rfl
    rw [List.range_succ_eq_map]
    simp

theorem linspace01_getLast? {n : ℕ} (h2 : 2 ≤ n) :
    (linspace01 n).getLast? = some 1 := by
  have hlen := linspace01_length n
  have hg := linspace01_get? h2 (show n - 1 < n by omega)
  rw [List.getLast?_eq_get?, hlen, hg]
  have hne : ((n : ℚ) - 1) ≠ 0 := by
    have : (2 : ℚ) ≤ (n : ℚ) := by exact_mod_cast h2
    linarith
  have hcast : ((n - 1 : ℕ) : ℚ) = (n : ℚ) - 1 := by
    have : 1 ≤ n := by omega
    push_cast [this]
    ring
  rw [hcast, div_self hne]

theorem sortQ_length (xs : List ℚ) : (sortQ xs).length = xs.length :=
  (List.perm_insertionSort _ _).length_eq

theorem sortQ_sorted (xs : List ℚ) : (sortQ xs).Sorted (· ≤ ·) :=
  List.sorted_insertionSort _ _

theorem sortQ_perm (xs : List ℚ) : (sortQ xs).Perm xs :=
  List.perm_insertionSort _ _

theorem sortQ_pairwise_lt {xs : List ℚ} (h : xs.Nodup) : (sortQ xs).Pairwise (· < ·) := by
  have hp := (sortQ_sorted xs).and ((sortQ_perm xs).nodup_iff.mpr h)
  exact hp.imp (fun hab => lt_of_le_of_ne hab.1 hab.2)

theorem accuMaxAux_of_sorted : ∀ {l : List ℚ} {m : ℚ},
    (m :: l).Sorted (· ≤ ·) → accuMaxAux m l = l := by
  intro l
  induction l with
  | nil =>
    intro m h
    rfl
  | cons x xs ih =>
    intro m h
    have hmx : m ≤ x := (List.sorted_cons.mp h).1 x (by simp)
    have hx : (x :: xs).Sorted (· ≤ ·) := (List.sorted_cons.mp h).2
    unfold accuMaxAux
    rw [max_eq_right hmx, ih hx]

theorem accuMax_of_sorted {l : List ℚ} (h : l.Sorted (· ≤ ·)) : accuMax l = l := by
  cases l with
  | nil => rfl
  | cons x xs =>
    show x :: accuMaxAux x xs = x :: xs
    rw [accuMaxAux_of_sorted h]

theorem percentileQ_linspace {xs : List ℚ} {k : ℕ} (h2 : 2 ≤ xs.length)
    (hk : k < xs.length) :
    percentileQ xs ((k : ℚ) / ((xs.length : ℚ) - 1) * 100) =
      (sortQ xs).get ⟨k, by rw [sortQ_length]; exact hk⟩ := by
  unfold percentileQ
  have hne : ((xs.length : ℚ) - 1) ≠ 0 := by
    have : (2 : ℚ) ≤ (xs.length : ℚ) := by exact_mod_cast h2
    linarith
  have hpos : (k : ℚ) / ((xs.length : ℚ) - 1) * 100 * (((sortQ xs).length : ℚ) - 1) / 100 =
      (k : ℚ) := by
    rw [sortQ_length]
    field_simp
  simp only [hpos, Int.floor_natCast, Int.toNat_natCast]
  rw [List.get?_eq_get (by rw [sortQ_length]; exact hk)]
  rcases lt_or_ge (k + 1) (sortQ xs).length with hlt | hge
  · rw [List.get?_eq_get hlt]
    simp
  · rw [List.get?_eq_none.mpr hge]

theorem percentileQ_zero_singleton (a : ℚ) : percentileQ [a] 0 = a := by
  unfold percentileQ
  norm_num [sortQ, List.insertionSort, List.orderedInsert]

/-- With one quantile per sample, the fitted quantiles are exactly the sorted
data and the references split the unit interval uniformly. -/
theorem qfit_eq {xs : List ℚ} (hne : xs ≠ []) :
    QScaler.fit xs.length xs = ⟨linspace01 xs.length, sortQ xs⟩ := by
  have hlpos : 1 ≤ xs.length := List.length_pos.mpr hne
  have hmap : (linspace01 xs.length).map (fun p => percentileQ xs (p * 100)) = sortQ xs := by
    rcases eq_or_lt_of_le hlpos with h1 | h2
    · obtain ⟨a, rfl⟩ := List.length_eq_one.mp h1.symm
      show [percentileQ [a] ((0 : ℚ) * 100)] = sortQ [a]
      rw [zero_mul, percentileQ_zero_singleton]
      rfl
    · apply List.ext_get?
      intro k
      rcases lt_or_ge k xs.length with hk | hk
      · rw [List.get?_map, linspace01_get? h2 hk]
        simp only [Option.map_some']
        rw [percentileQ_linspace h2 hk, List.get?_eq_get (by rw [sortQ_length]; exact hk)]
      · rw [List.get?_eq_none.mpr (by rw [List.length_map, linspace01_length]; exact hk),
          List.get?_eq_none.mpr (by rw [sortQ_length]; exact hk)]
  unfold QScaler.fit
  have hn : max 1 (min xs.length xs.length) = xs.length := by omega
  simp only [hn]
  rw [hmap, accuMax_of_sorted (sortQ_sorted xs)]

/-- `np.interp` evaluated exactly at a knot returns the matching value, for
strictly increasing knots. -/
theorem interpQ_knot {xp : List ℚ} : ∀ {fp : List ℚ}, xp.Pairwise (· < ·) →
    xp.length = fp.length → ∀ {k : ℕ} (hk : k < xp.length) (hfk : k < fp.length),
    interpQ (xp.get ⟨k, hk⟩) xp fp = fp.get ⟨k, hfk⟩ := by
  induction xp with
  | nil =>
    intro fp hp hl k hk hfk
    exact absurd hk (by simp)
  | cons x0 rest ihx =>
    intro fp hp hl k hk hfk
    cases rest with
    | nil =>
      have hk0 : k = 0 := by
        simp only [List.length_singleton] at hk
        omega
      subst hk0
      cases fp with
      | nil => simp at hl
      | cons y0 ys => rfl
    | cons x1 rest2 =>
      cases fp with
      | nil => simp at hl
      | cons y0 ys =>
        cases ys with
        | nil => simp at hl
        | cons y1 ys2 =>
          cases k with
          | zero =>
            show interpQ x0 (x0 :: x1 :: rest2) (y0 :: y1 :: ys2) = y0
            unfold interpQ
            rw [if_pos le_rfl]
          | succ j =>
            have hjr : j < (x1 :: rest2).length := by
              simp only [List.length_cons] at hk ⊢
              omega
            have hx0v : x0 < (x1 :: rest2).get ⟨j, hjr⟩ :=
              List.rel_of_pairwise_cons hp (List.get_mem _ _ _)
            have hget : (x0 :: x1 :: rest2).get ⟨j + 1, hk⟩ = (x1 :: rest2).get ⟨j, hjr⟩ :=
              rfl
            rw [hget]
            show interpQ ((x1 :: rest2).get ⟨j, hjr⟩) (x0 :: x1 :: rest2) (y0 :: y1 :: ys2) =
              (y0 :: y1 :: ys2).get ⟨j + 1, hfk⟩
            unfold interpQ
            rw [if_neg (not_le.mpr hx0v)]
            have hptail : (x1 :: rest2).Pairwise (· < ·) := (List.pairwise_cons.mp hp).2
            cases j with
            | zero =>
              have hg0 : (x1 :: rest2).get ⟨0, hjr⟩ = x1 := rfl
              rw [hg0, if_pos le_rfl]
              have hx01 : x0 < x1 := List.rel_of_pairwise_cons hp (by simp)
              have hne : x1 - x0 ≠ 0 := by
                intro hz
                exact absurd (by linarith : x0 = x1) hx01.ne
              show y0 + (y1 - y0) * (x1 - x0) / (x1 - x0) = y1
              field_simp
            | succ i =>
              have hir : i < rest2.length := by
                simp only [List.length_cons] at hjr
                omega
              have hx1v : x1 < rest2.get ⟨i, hir⟩ :=
                List.rel_of_pairwise_cons hptail (List.get_mem _ _ _)
              have hgetv : (x1 :: rest2).get ⟨i + 1, hjr⟩ = rest2.get ⟨i, hir⟩ := rfl
              rw [hgetv, if_neg (not_le.mpr hx1v)]
              have hfk' : i + 1 < (y1 :: ys2).length := by
                simp only [List.length_cons] at hfk ⊢
                omega
              have hlen' : (x1 :: rest2).length = (y1 :: ys2).length := by
                simp only [List.length_cons] at hl ⊢
                omega
              have := ihx hptail hlen' hjr hfk'
              rw [hgetv] at this
              rw [this]
              rfl

theorem revNeg_length (l : List ℚ) : (revNeg l).length = l.length := by
  unfold revNeg
  simp

theorem revNeg_pairwise {l : List ℚ} (h : l.Pairwise (· < ·)) :
    (revNeg l).Pairwise (· < ·) := by
  unfold revNeg
  rw [List.pairwise_reverse]
  refine List.Pairwise.map _ ?_ h
  intro a b hab
  exact neg_lt_neg hab

theorem revNeg_get? {l : List ℚ} {k : ℕ} (hk : k < l.length) :
    (revNeg l).get? (l.length - 1 - k) = some (-(l.get ⟨k, hk⟩)) := by
  unfold revNeg
  rw [List.get?_eq_getElem?, List.getElem?_reverse (by simp; omega)]
  have hidx : (l.map (fun v => -v)).length - 1 - (l.length - 1 - k) = k := by
    simp only [List.length_map]
    omega
  rw [hidx, List.getElem?_map, List.getElem?_eq_getElem hk]
  rfl

theorem interpQ_revNeg_knot {qs refs : List ℚ} (hp : qs.Pairwise (· < ·))
    (hl : qs.length = refs.length) {k : ℕ} (hk : k < qs.length) (hrk : k < refs.length) :
    interpQ (-(qs.get ⟨k, hk⟩)) (revNeg qs) (revNeg refs) = -(refs.get ⟨k, hrk⟩) := by
  have hj : qs.length - 1 - k < (revNeg qs).length := by
    rw [revNeg_length]
    omega
  have hj' : qs.length - 1 - k < (revNeg refs).length := by
    rw [revNeg_length]
    omega
  have hgq : (revNeg qs).get ⟨qs.length - 1 - k, hj⟩ = -(qs.get ⟨k, hk⟩) := by
    have h1 := revNeg_get? hk
    rw [List.get?_eq_get hj] at h1
    exact Option.some_inj.mp h1
  have hgr : (revNeg refs).get ⟨qs.length - 1 - k, hj'⟩ = -(refs.get ⟨k, hrk⟩) := by
    have h1 := revNeg_get? hrk
    rw [show refs.length - 1 - k = qs.length - 1 - k by omega] at h1
    rw [List.get?_eq_get hj'] at h1
    exact Option.some_inj.mp h1
  rw [← hgq, interpQ_knot (revNeg_pairwise hp)
    (by rw [revNeg_length, revNeg_length, hl]) hj
    (by rw [revNeg_length, ← hl]; omega), hgr]

theorem QScaler.transform_eq {t : QScaler} {lo hi : ℚ} (hh : t.qs.head? = some lo)
    (hl : t.qs.getLast? = some hi) (x : ℚ) :
    t.transform x = if x = lo then 0 else if x = hi then 1
      else (interpQ x t.qs t.refs - interpQ (-x) (revNeg t.qs) (revNeg t.refs)) / 2 := by
  unfold QScaler.transform
  simp only [hh, hl]

theorem QScaler.inverse_eq {t : QScaler} {lo hi : ℚ} (hh : t.qs.head? = some lo)
    (hl : t.qs.getLast? = some hi) (x : ℚ) :
    t.inverse x = if x = 0 then lo else if x = 1 then hi
      else interpQ x t.refs t.qs := by
  unfold QScaler.inverse
  simp only [hh, hl]

theorem linspace01_get_zero {n : ℕ} (h1 : 1 ≤ n) (h : 0 < (linspace01 n).length) :
    (linspace01 n).get ⟨0, h⟩ = 0 := by
  have h0 := linspace01_head? h1
  rw [← List.get?_zero, List.get?_eq_get h] at h0
  exact Option.some_inj.mp h0

theorem linspace01_get_last {n : ℕ} (h2 : 2 ≤ n) (h : n - 1 < (linspace01 n).length) :
    (linspace01 n).get ⟨n - 1, h⟩ = 1 := by
  have hg := linspace01_get? h2 (show n - 1 < n by omega)
  rw [List.get?_eq_get h] at hg
  have hne : ((n : ℚ) - 1) ≠ 0 := by
    have : (2 : ℚ) ≤ (n : ℚ) := by exact_mod_cast h2
    linarith
  have hcast : ((n - 1 : ℕ) : ℚ) = (n : ℚ) - 1 := by
    have : 1 ≤ n := by omega
    push_cast [this]
    ring
  rw [Option.some_inj.mp hg, hcast, div_self hne]

theorem sortQ_get_lt {xs : List ℚ} (hnd : xs.Nodup) {i j : ℕ} (hij : i < j)
    (hi : i < (sortQ xs).length) (hj : j < (sortQ xs).length) :
    (sortQ xs).get ⟨i, hi⟩ < (sortQ xs).get ⟨j, hj⟩ := by
  have hp := sortQ_pairwise_lt hnd
  rw [List.pairwise_iff_get] at hp
  exact hp ⟨i, hi⟩ ⟨j, hj⟩ (by simpa using hij)

theorem linspace01_get_lt {n : ℕ} {i j : ℕ} (hij : i < j)
    (hi : i < (linspace01 n).length) (hj : j < (linspace01 n).length) :
    (linspace01 n).get ⟨i, hi⟩ < (linspace01 n).get ⟨j, hj⟩ := by
  have hp := linspace01_pairwise n
  rw [List.pairwise_iff_get] at hp
  exact hp ⟨i, hi⟩ ⟨j, hj⟩ (by simpa using hij)

theorem sortQ_head? {xs : List ℚ} (h : 0 < (sortQ xs).length) :
    (sortQ xs).head? = some ((sortQ xs).get ⟨0, h⟩) := by
  rw [← List.get?_zero, List.get?_eq_get h]

theorem sortQ_getLast? {xs : List ℚ} (h : xs.length - 1 < (sortQ xs).length) :
    (sortQ xs).getLast? = some ((sortQ xs).get ⟨xs.length - 1, h⟩) := by
  have hslen : (sortQ xs).length = xs.length := sortQ_length xs
  rw [List.getLast?_eq_get?, show (sortQ xs).length - 1 = xs.length - 1 by omega,
    List.get?_eq_get h]

/-- The forward quantile transform maps the k-th sorted sample to the k-th
uniform reference. -/
theorem qtransform_get {xs : List ℚ} (hnd : xs.Nodup) (hne : xs ≠ []) {k : ℕ}
    (hk : k < xs.length) (hks : k < (sortQ xs).length) (hkr : k < (linspace01 xs.length).length) :
    QScaler.transform ⟨linspace01 xs.length, sortQ xs⟩ ((sortQ xs).get ⟨k, hks⟩) =
    (linspace01 xs.length).get ⟨k, hkr⟩ := by
  have hlen1 : 1 ≤ xs.length := List.length_pos.mpr hne
  have hslen : (sortQ xs).length = xs.length := sortQ_length xs
  have hs0 : 0 < (sortQ xs).length := by omega
  have hsl : xs.length - 1 < (sortQ xs).length := by omega
  rw [QScaler.transform_eq (sortQ_head? hs0) (sortQ_getLast? hsl)]
  by_cases hk0 : k = 0
  · subst hk0
    rw [if_pos rfl]
    exact (linspace01_get_zero hlen1 _).symm
  · by_cases hklast : k = xs.length - 1
    · subst hklast
      rw [if_neg (sortQ_get_lt hnd (by omega) hs0 hsl).ne', if_pos rfl]
      exact (linspace01_get_last (by omega) _).symm
    · rw [if_neg (sortQ_get_lt hnd (by omega) hs0 hks).ne',
        if_neg (sortQ_get_lt hnd (by omega) hks hsl).ne]
      have hlqr : (sortQ xs).length = (linspace01 xs.length).length := by
        rw [hslen, linspace01_length]
      have hfwd := interpQ_knot (sortQ_pairwise_lt hnd) hlqr hks hkr
      have hbwd := interpQ_revNeg_knot (sortQ_pairwise_lt hnd) hlqr hks hkr
      rw [hfwd, hbwd]
      ring

/-- Full per-element round trip of the numerical pipeline: quantile transform,
range scale, range inverse, quantile inverse. -/
theorem qt_pipeline_elem {xs : List ℚ} (hnd : xs.Nodup) (hne : xs ≠ []) {mm : MMScaler}
    (hmm : MMScaler.fit (-1) 1
      (xs.map (QScaler.transform ⟨linspace01 xs.length, sortQ xs⟩)) = some mm)
    {x : ℚ} (hx : x ∈ xs) :
    QScaler.inverse ⟨linspace01 xs.length, sortQ xs⟩ (mm.inverse (mm.transform
      (QScaler.transform ⟨linspace01 xs.length, sortQ xs⟩ x))) = x := by
  have hlen1 : 1 ≤ xs.length := List.length_pos.mpr hne
  have hslen : (sortQ xs).length = xs.length := sortQ_length xs
  have hs0 : 0 < (sortQ xs).length := by omega
  have hsl : xs.length - 1 < (sortQ xs).length := by omega
  have hxs : x ∈ sortQ xs := (sortQ_perm xs).mem_iff.mpr hx
  rcases List.mem_iff_get.mp hxs with ⟨⟨k, hks⟩, hgx⟩
  have hk : k < xs.length := by omega
  have hkr : k < (linspace01 xs.length).length := by rw [linspace01_length]; omega
  have htr : QScaler.transform ⟨linspace01 xs.length, sortQ xs⟩ x =
      (linspace01 xs.length).get ⟨k, hkr⟩ := by
    rw [← hgx]
    exact qtransform_get hnd hne hk hks hkr
  obtain ⟨hmm_eq, hlohi, humne⟩ := MMScaler.fit_eq_some hmm
  have hrmem : QScaler.transform ⟨linspace01 xs.length, sortQ xs⟩ x ∈
      xs.map (QScaler.transform ⟨linspace01 xs.length, sortQ xs⟩) :=
    List.mem_map_of_mem _ hx
  have hmmrt : mm.inverse (mm.transform
      (QScaler.transform ⟨linspace01 xs.length, sortQ xs⟩ x)) =
      QScaler.transform ⟨linspace01 xs.length, sortQ xs⟩ x := by
    apply MMScaler.inverse_transform_exact
    · rw [hmm_eq]
      norm_num
    · rw [hmm_eq]
      exact listMin_le _ hrmem
    · rw [hmm_eq]
      exact le_listMax _ hrmem
  rw [hmmrt, htr, QScaler.inverse_eq (sortQ_head? hs0) (sortQ_getLast? hsl)]
  by_cases hk0 : k = 0
  · subst hk0
    rw [if_pos (linspace01_get_zero hlen1 _), ← hgx]
  · by_cases hklast : k = xs.length - 1
    · subst hklast
      have h2 : 2 ≤ xs.length := by omega
      have hget1 : (linspace01 xs.length).get ⟨xs.length - 1, hkr⟩ = 1 :=
        linspace01_get_last h2 _
      have hne0 : (linspace01 xs.length).get ⟨xs.length - 1, hkr⟩ ≠ 0 := by
        rw [hget1]
        norm_num
      rw [if_neg hne0, if_pos hget1, ← hgx]
    · have h2 : 2 ≤ xs.length := by omega
      have hr0 : (linspace01 xs.length).length = xs.length := linspace01_length _
      have h0r : 0 < (linspace01 xs.length).length := by omega
      have hlr : xs.length - 1 < (linspace01 xs.length).length := by omega
      have hne0 : (linspace01 xs.length).get ⟨k, hkr⟩ ≠ 0 := by
        rw [← linspace01_get_zero hlen1 h0r]
        exact (linspace01_get_lt (by omega) h0r hkr).ne'
      have hne1 : (linspace01 xs.length).get ⟨k, hkr⟩ ≠ 1 := by
        rw [← linspace01_get_last h2 hlr]
        exact (linspace01_get_lt (by omega) hkr hlr).ne
      rw [if_neg hne0, if_neg hne1]
      have hlrq : (linspace01 xs.length).length = (sortQ xs).length := by
        rw [hslen, linspace01_length]
      rw [interpQ_knot (linspace01_pairwise _) hlrq hkr hks, hgx]

/-- Column-level round trip of the numerical pipeline. -/
theorem qt_pipeline_col {xs : List ℚ} (hnd : xs.Nodup) (hne : xs ≠ []) {mm : MMScaler}
    (hmm : MMScaler.fit (-1) 1
      (xs.map (QScaler.transform ⟨linspace01 xs.length, sortQ xs⟩)) = some mm) :
    ((xs.map (QScaler.transform ⟨linspace01 xs.length, sortQ xs⟩)).map mm.transform).map
      (fun v => QScaler.inverse ⟨linspace01 xs.length, sortQ xs⟩ (mm.inverse v)) = xs := by
  rw [List.map_map, List.map_map]
  refine (List.map_congr_left ?_).trans (List.map_id' xs)
  intro x hx
  simp only [Function.comp_apply]
  exact qt_pipeline_elem hnd hne hmm hx

/-- C3 (amended): the forward-transform / inverse-transform round trip on the
original data reconstructs every categorical column with exactly two distinct
values exactly, and reconstructs the LAST numerical column (the only one whose
fit the shared numerical scaler retains) exactly when its values are pairwise
distinct and the dataset has at most 99 rows (one quantile per row).  Other
numerical columns are inverse-transformed through the last column's fit, and
categorical columns with more than two distinct values come back as bin
codes, so neither is reconstructed in general. -/
theorem c3_roundtrip_amended (nf out : Frame)
    (hnd : (nf.map (·.name)).Nodup)
    (hcl : ∀ col ∈ nf, col.vals.length = rowCount nf)
    (hr99 : rowCount nf ≤ 99)
    (h : roundTrip nf = .ok out) :
    (∀ c x y, c ∈ (columns_type nf).2 → npUnique (nf.colVals c) = [x, y] →
      out.colVals c = nf.colVals c) ∧
    (∀ c, (columns_type nf).1.getLast? = some c → (nf.colVals c).Nodup →
      out.colVals c = nf.colVals c) := by
  obtain ⟨hnumnd, hcatnd⟩ := columns_type_nodup hnd
  rcases roundTrip_ok_inv h with ⟨scaled, cs, ns, hdt, hgd⟩
  rcases data_transformation_ok_inv hdt with ⟨f1, hcat, hnum⟩
  have hsn : scaled.map (·.name) = nf.map (·.name) := data_transformation_names hdt
  rcases generate_data_ok_inv hgd with ⟨hlen, g1, g2, hg1, hg2, hg3⟩
  have hbv : ∀ c, (buildFrame nf (scaled.map (·.vals))).colVals c = scaled.colVals c :=
    buildFrame_vals hsn
  have hbn : (buildFrame nf (scaled.map (·.vals))).map (·.name) = nf.map (·.name) := by
    apply buildFrame_names
    rw [List.length_map]
    have := congrArg List.length hsn
    simpa using this
  constructor
  · -- binary categorical columns
    intro c x y hc hxy
    have hcnum : c ∉ (columns_type nf).1 := columns_type_disjoint hnd hc
    have hnames : c ∈ nf.map (·.name) := mem_names_of_mem_cat hc
    have hnsome : (nf.findCol c).isSome := (Frame.findCol_isSome_iff nf c).mpr hnames
    obtain ⟨s, hsfit, hsfind⟩ := dtCatFold_colVals hcat hc hcatnd
    rw [if_pos hnsome] at hsfind
    have hnum_pres : scaled.findCol c = f1.findCol c :=
      foldE_view_const (fun p : Frame × Option (QScaler × MMScaler) => p.1.findCol c)
        (fun b b' c' hc' hs => dtNumStep_view_ne hs
          (fun (he : c = c') => hcnum (he ▸ hc'))) hnum
    have hscol : scaled.colVals c = (nf.colVals c).map s.transform := by
      rw [Frame.colVals_eq_findCol, hnum_pres, hsfind]
      rfl
    have hcne : (columns_type nf).2 ≠ [] := List.ne_nil_of_mem hc
    obtain ⟨cl, hclast⟩ := Option.isSome_iff_exists.mp (List.getLast?_isSome.mpr hcne)
    obtain ⟨g, hgfit, hcs⟩ := dtCatFold_last hcat hclast
    obtain ⟨hgeq, hglo, hgne⟩ := MMScaler.fit_eq_some hgfit
    have hg : 0 < g.scaleF := by
      rw [hgeq]
      exact MMScaler.scaleF_pos (by norm_num) (listMin_le_listMax hgne)
    rcases mem_split_nodup hc hcatnd with ⟨l₁, l₂, hceq, hnl₁, hnl₂⟩
    rw [hceq] at hg1 hg3
    rcases foldE_split (fun f => f.findCol c) hg1
        (fun b b' c' hc' hs => gdCatStep_findCol_ne hs (fun (he : c = c') => hnl₁ (he ▸ hc')))
        (fun b b' c' hc' hs => gdCatStep_findCol_ne hs (fun (he : c = c') => hnl₂ (he ▸ hc')))
      with ⟨m1, m1', hstep1, hview1, hview1'⟩
    have hd2 : distinctCount (nf.colVals c) = 2 := by
      unfold distinctCount
      rw [hxy]
      rfl
    obtain ⟨s', hcs', rfl⟩ := gdCatStep_ok_of_gt hstep1 (by rw [hd2]; norm_num)
    have hcs2 : cs = some g := hcs
    rw [hcs2] at hcs'
    have hsg : s' = g := Option.some_inj.mp hcs'.symm
    rw [hsg] at hview1'
    have hm1col : m1.colVals c = (nf.colVals c).map s.transform := by
      rw [Frame.colVals_eq_findCol, hview1, ← Frame.colVals_eq_findCol, hbv c, hscol]
    obtain ⟨hbu, hbmap⟩ := binary_cat_pipeline hxy hsfit hg
    have hkb : kbinsFitTransform (distinctCount (nf.colVals c))
        ((m1.colVals c).map g.inverse) =
        kbinsFitTransform 2 (((nf.colVals c).map s.transform).map g.inverse) := by
      rw [hd2, hm1col]
    have hm1some : (m1.findCol c).isSome := by
      rw [hview1, Frame.findCol_isSome_iff, hbn]
      exact hnames
    have hviewN : g2.findCol c = g1.findCol c :=
      foldE_view_const (fun f => f.findCol c)
        (fun b b' c' hc' hs => gdNumStep_findCol_ne hs
          (fun (he : c = c') => hcnum (he ▸ hc'))) hg2
    rcases foldE_split (fun f => f.findCol c) hg3
        (fun b b' c' hc' hs => gdRemapStep_findCol_ne hs (fun (he : c = c') => hnl₁ (he ▸ hc')))
        (fun b b' c' hc' hs => gdRemapStep_findCol_ne hs (fun (he : c = c') => hnl₂ (he ▸ hc')))
      with ⟨m3, m3', hstep3, hview3, hview3'⟩
    obtain ⟨u0, u1, ur, d0, d1, dr, hu, hdq, rfl⟩ := gdRemapStep_ok_of_two hstep3 hd2
    rw [hxy] at hdq
    simp only [List.cons.injEq] at hdq
    obtain ⟨rfl, rfl, rfl⟩ := hdq
    have hm3find : m3.findCol c =
        some ⟨c, true, kbinsFitTransform 2 (((nf.colVals c).map s.transform).map g.inverse)⟩ := by
      rw [hview3, hviewN, hview1', Frame.findCol_setCol_self, if_pos hm1some, hkb]
    have hm3col : m3.colVals c =
        kbinsFitTransform 2 (((nf.colVals c).map s.transform).map g.inverse) := by
      rw [Frame.colVals_eq_findCol, hm3find]
      rfl
    rw [hm3col, hbu] at hu
    simp only [List.cons.injEq] at hu
    obtain ⟨h0, h1, h2⟩ := hu
    subst h0
    subst h1
    have hur : ur = [] := h2.symm
    subst hur
    have hm3some : (m3.findCol c).isSome := by
      rw [hm3find]
      rfl
    have hout : out.colVals c =
        (kbinsFitTransform 2 (((nf.colVals c).map s.transform).map g.inverse)).map
          (fun v => if v = 0 then x else if v = 1 then y else v) := by
      rw [Frame.colVals_eq_findCol, hview3', Frame.findCol_setCol_self, if_pos hm3some,
        hm3col]
      rfl
    rw [hout, hbmap]
  · -- last numerical column
    intro c hlast hnodupcol
    have hcnum : c ∈ (columns_type nf).1 := by
      obtain ⟨hne', hceq'⟩ := List.mem_getLast?_eq_getLast
        (show c ∈ (columns_type nf).1.getLast? from hlast)
      rw [hceq']
      exact List.getLast_mem hne'
    have hccat : c ∉ (columns_type nf).2 := columns_type_disjoint' hnd hcnum
    have hnames : c ∈ nf.map (·.name) := mem_names_of_mem_num hcnum
    have hnsome : (nf.findCol c).isSome := (Frame.findCol_isSome_iff nf c).mpr hnames
    obtain ⟨mm, hmmfit, hscfind⟩ := dtNumFold_colVals hnum hcnum hnumnd
    have hf1pres : f1.findCol c = nf.findCol c :=
      foldE_view_const (fun p : Frame × Option MMScaler => p.1.findCol c)
        (fun b b' c' hc' hs => dtCatStep_view_ne hs
          (fun (he : c = c') => hccat (he ▸ hc'))) hcat
    rw [if_pos (by rw [hf1pres]; exact hnsome)] at hscfind
    obtain ⟨mm2, hmm2fit, hns⟩ := dtNumFold_last hnum hlast
    have hmmeq : mm = mm2 := Option.some_inj.mp (hmmfit.symm.trans hmm2fit)
    subst hmmeq
    have hnecol : nf.colVals c ≠ [] := by
      obtain ⟨_, _, hmapne⟩ := MMScaler.fit_eq_some hmmfit
      intro hnil
      rw [hnil] at hmapne
      exact hmapne rfl
    have hcollen : (nf.colVals c).length = rowCount nf := by
      rcases Option.isSome_iff_exists.mp hnsome with ⟨col, hfind⟩
      have hmem : col ∈ nf := List.mem_of_find?_eq_some hfind
      rw [Frame.colVals_eq_findCol, hfind]
      exact hcl col hmem
    have hqt : dtQt nf c = ⟨linspace01 (nf.colVals c).length, sortQ (nf.colVals c)⟩ := by
      unfold dtQt
      rw [if_neg (by omega), ← hcollen]
      exact qfit_eq hnecol
    have hgv1 : g1.findCol c = (buildFrame nf (scaled.map (·.vals))).findCol c :=
      foldE_view_const (fun f => f.findCol c)
        (fun b b' c' hc' hs => gdCatStep_findCol_ne hs
          (fun (he : c = c') => hccat (he ▸ hc'))) hg1
    rcases mem_split_nodup hcnum hnumnd with ⟨l₁, l₂, hceq, hnl₁, hnl₂⟩
    rw [hceq] at hg2
    rcases foldE_split (fun f => f.findCol c) hg2
        (fun b b' c' hc' hs => gdNumStep_findCol_ne hs (fun (he : c = c') => hnl₁ (he ▸ hc')))
        (fun b b' c' hc' hs => gdNumStep_findCol_ne hs (fun (he : c = c') => hnl₂ (he ▸ hc')))
      with ⟨m2, m2', hstep2, hview2, hview2'⟩
    obtain ⟨p, hnsp, rfl⟩ := gdNumStep_ok_inv hstep2
    have hpval : p = (dtQt nf c, mm) := Option.some_inj.mp (hnsp.symm.trans hns)
    subst hpval
    have hm2col : m2.colVals c =
        ((nf.colVals c).map (dtQt nf c).transform).map mm.transform := by
      rw [Frame.colVals_eq_findCol, hview2, hgv1, ← Frame.colVals_eq_findCol, hbv c,
        Frame.colVals_eq_findCol, hscfind]
      rfl
    have hm2some : (m2.findCol c).isSome := by
      rw [hview2, hgv1, Frame.findCol_isSome_iff, hbn]
      exact hnames
    have hgv3 : out.findCol c = g2.findCol c :=
      foldE_view_const (fun f => f.findCol c)
        (fun b b' c' hc' hs => gdRemapStep_findCol_ne hs
          (fun (he : c = c') => hccat (he ▸ hc'))) hg3
    have hout : out.colVals c =
        (m2.colVals c).map (fun v => (dtQt nf c).inverse (mm.inverse v)) := by
      rw [Frame.colVals_eq_findCol, hgv3, hview2', Frame.findCol_setCol_self,
        if_pos hm2some]
      rfl
    rw [hout, hm2col]
    rw [hqt] at hmmfit ⊢
    exact qt_pipeline_col hnodupcol hnecol hmmfit

/-- C3 counterexample to the original claim: for the dataset with categorical
column k = [0, 1, 10] (three distinct values) and numerical columns
a = [0, 1, 2] and b = [100, 200, 300], the forward/inverse round trip on the
original data succeeds but returns k = [0, 0, 2] (bin codes, not the original
categories, although k has more than one distinct value) and
a = [100, 200, 300] (the shared numerical scaler retains only the LAST
numerical column's fit, so a comes back as b's values — not within any
tolerance of [0, 1, 2], even in exact arithmetic). -/
theorem c3_counterexample :
    roundTrip [⟨"k", true, [0, 1, 10]⟩, ⟨"a", false, [0, 1, 2]⟩,
        ⟨"b", false, [100, 200, 300]⟩] =
      .ok [⟨"k", true, [0, 0, 2]⟩, ⟨"a", false, [100, 200, 300]⟩,
        ⟨"b", false, [100, 200, 300]⟩] ∧
    ([0, 0, 2] : List ℚ) ≠ [0, 1, 10] ∧
    ([100, 200, 300] : List ℚ) ≠ [0, 1, 2] := by
  refine ⟨?_, ?_, ?_⟩
  · with_unfolding_all rfl
  · with_unfolding_all decide
  · with_unfolding_all decide

/-- C3 witness: the amended round-trip theorem applied to the dataset with
binary categorical column k = [5, 2, 5] and (last) numerical column
a = [0, 1, 2]: both columns are reconstructed exactly. -/
theorem c3_witness :
    roundTrip [⟨"k", true, [5, 2, 5]⟩, ⟨"a", false, [0, 1, 2]⟩] =
      .ok [⟨"k", true, [5, 2, 5]⟩, ⟨"a", false, [0, 1, 2]⟩] ∧
    Frame.colVals [⟨"k", true, [5, 2, 5]⟩, ⟨"a", false, [0, 1, 2]⟩] "k" =
      Frame.colVals [⟨"k", true, [5, 2, 5]⟩] "k" ∧
    Frame.colVals [⟨"k", true, [5, 2, 5]⟩, ⟨"a", false, [0, 1, 2]⟩] "a" =
      Frame.colVals [⟨"a", false, [0, 1, 2]⟩] "a" := by
  have hrt : roundTrip [⟨"k", true, [5, 2, 5]⟩, ⟨"a", false, [0, 1, 2]⟩] =
      .ok [⟨"k", true, [5, 2, 5]⟩, ⟨"a", false, [0, 1, 2]⟩] := by
    with_unfolding_all rfl
  have h := c3_roundtrip_amended
    [⟨"k", true, [5, 2, 5]⟩, ⟨"a", false, [0, 1, 2]⟩]
    [⟨"k", true, [5, 2, 5]⟩, ⟨"a", false, [0, 1, 2]⟩]
    (by with_unfolding_all decide)
    (by with_unfolding_all decide)
    (by with_unfolding_all decide)
    hrt
  refine ⟨hrt, ?_, ?_⟩
  · have hk := h.1 "k" 2 5 (by with_unfolding_all decide) (by with_unfolding_all rfl)
    rw [hk]
    with_unfolding_all rfl
  · have ha := h.2 "a" (by with_unfolding_all rfl) (by with_unfolding_all decide)
    rw [ha]
    with_unfolding_all rfl
